import Mathlib

/-!
Shallow embedding of the interactive grid background animator.

The embedded code is the most complete variant of the component,
src/components/ui/interactive-grid-pattern.tsx: its mouse-move handler
(coordinate mapping, redundant-event suppression, neighbor selection,
highlight scheduling), its timer callbacks (dwell expiry and fade removal),
its mouse-leave handler, and its unmount cleanup hook.  The responsive
breakpoint hook src/hooks/use-is-mobile.ts and the handler-attachment gating
of the variant that consults it are embedded as well.

Pointer coordinates and the cell pixel sizes are JS numbers; they are
modelled as rationals, with Math.floor modelled as the integer floor.
Timer handles (setTimeout return values) are modelled as numeric ids drawn
from a counter; the pending-timer table of the host runtime is modelled as
an explicit list carried in the component state.  The pseudo-random
shuffle-then-slice neighbor subselection is modelled as an explicit
selection function parameter; the real selection always returns a
duplicate-free subsequence of the neighbor list, which reachability
tracks as a hypothesis on that parameter.
-/

/-- Grid configuration: the width and height props (pixel size of one cell)
and the squares prop, a pair of the horizontal and vertical cell counts. -/
structure GridConfig where
  width : ℚ
  height : ℚ
  horizontal : ℕ
  vertical : ℕ
deriving DecidableEq, Repr

/-- The state field of a per-cell record: 'highlighted' | 'fading'. -/
inductive Phase where
  | highlighted
  | fading
deriving DecidableEq, Repr

/-- One value of the squaresState mapping: { state, timeoutId? }. -/
structure SquareState where
  state : Phase
  timeoutId : Option ℕ
deriving DecidableEq, Repr

/-- The sparse squaresState record, keyed by cell index. -/
abbrev SquaresMap := List (ℤ × SquareState)

/-- Lookup of a key in the squaresState record (JS property read). -/
def getSquare (k : ℤ) : SquaresMap → Option SquareState
  | [] => none
  | kv :: rest => if kv.1 = k then some kv.2 else getSquare k rest

/-- Write of a key in the squaresState record (JS property assignment):
replaces the existing entry in place, or appends a fresh one. -/
def setSquare (k : ℤ) (v : SquareState) : SquaresMap → SquaresMap
  | [] => [(k, v)]
  | kv :: rest => if kv.1 = k then (k, v) :: rest else kv :: setSquare k v rest

/-- Deletion of a key from the squaresState record (JS delete operator). -/
def eraseSquare (k : ℤ) (m : SquaresMap) : SquaresMap :=
  m.filter fun kv => kv.1 != k

/-- The two kinds of one-shot timer the component schedules: the dwell timer
set when a cell becomes highlighted, and the removal timer set when a cell
becomes fading. -/
inductive TimerKind where
  | dwell
  | removal
deriving DecidableEq, Repr

/-- One pending timer of the host runtime: its handle, the cell index its
callback closes over, its absolute fire time, and which callback it runs. -/
structure Timer where
  id : ℕ
  index : ℤ
  fireAt : ℕ
  kind : TimerKind
deriving DecidableEq, Repr

/-- clearTimeout: removes the pending timer with the given handle. -/
def clearTimeout (tid : ℕ) (ts : List Timer) : List Timer :=
  ts.filter fun t => t.id != tid

/-- The cancel-if-present step `if (square?.timeoutId) clearTimeout(...)`
applied before rescheduling, with the (possibly absent) record it reads. -/
def clearRecorded (sq : Option SquareState) (ts : List Timer) : List Timer :=
  match sq with
  | some s =>
    match s.timeoutId with
    | some tid => clearTimeout tid ts
    | none => ts
  | none => ts

/-- The whole mutable state owned by one component instance: the
squaresState record, the lastSquareRef ref, plus the pending timers and the
fresh-handle counter and clock of the host runtime. -/
structure AnimState where
  squares : SquaresMap
  lastSquare : Option ℤ
  timers : List Timer
  nextTimerId : ℕ
  now : ℕ
deriving DecidableEq, Repr

/-- Initial state: empty squaresState, lastSquareRef = null, no pending
timers.  Handles start at 1 (browser timer handles are positive). -/
def initState : AnimState :=
  { squares := [], lastSquare := none, timers := [], nextTimerId := 1, now := 0 }

/-- Dwell duration of the most complete variant: setTimeout(..., 400). -/
def dwellDuration : ℕ := 400

/-- Fade-to-removal duration scheduled by the dwell callback: 500. -/
def fadeRemovalDuration : ℕ := 500

/-- Fade-to-removal duration scheduled by the mouse-leave handler: 100. -/
def leaveFadeDuration : ℕ := 100

/-- Column of a pointer position: Math.floor(x / width). -/
def colOf (cfg : GridConfig) (x : ℚ) : ℤ := ⌊x / cfg.width⌋

/-- Row of a pointer position: Math.floor(y / height). -/
def rowOf (cfg : GridConfig) (y : ℚ) : ℤ := ⌊y / cfg.height⌋

/-- The cell index computed at the top of handleMouseMove:
Math.floor(y / height) * horizontal + Math.floor(x / width). -/
def currentSquare (cfg : GridConfig) (x y : ℚ) : ℤ :=
  rowOf cfg y * (cfg.horizontal : ℤ) + colOf cfg x

/-- The eight (i, j) loop offsets of getNeighbors, in loop order, with the
(0, 0) pair skipped by the continue statement. -/
def mooreOffsets : List (ℤ × ℤ) :=
  [(-1, -1), (-1, 0), (-1, 1), (0, -1), (0, 1), (1, -1), (1, 0), (1, 1)]

/-- getNeighbors: collects newRow * horizontal + newCol over the Moore
offsets of the pointer cell, keeping only in-bounds positions. -/
def getNeighbors (cfg : GridConfig) (x y : ℚ) : List ℤ :=
  let col := colOf cfg x
  let row := rowOf cfg y
  mooreOffsets.filterMap fun ij =>
    let newRow := row + ij.1
    let newCol := col + ij.2
    if 0 ≤ newRow ∧ newRow < (cfg.vertical : ℤ) ∧
        0 ≤ newCol ∧ newCol < (cfg.horizontal : ℤ) then
      some (newRow * (cfg.horizontal : ℤ) + newCol)
    else none

/-- Accumulator of the for-loop inside the mouse-move state update: the
squaresToUpdate record being built, and the timer table and handle counter
as mutated so far. -/
structure MoveAcc where
  updates : SquaresMap
  timers : List Timer
  nextId : ℕ
deriving DecidableEq, Repr

/-- One iteration of the for-loop of handleMouseMove over randomNeighbors:
reads the cell from newStates (the pre-loop snapshot), cancels its recorded
timer if any, schedules the dwell timer, and records
{ state: 'highlighted', timeoutId } in squaresToUpdate. -/
def processNeighbor (now : ℕ) (orig : SquaresMap) (acc : MoveAcc) (index : ℤ) :
    MoveAcc :=
  let timers1 := clearRecorded (getSquare index orig) acc.timers
  let tid := acc.nextId
  { updates := setSquare index ⟨Phase.highlighted, some tid⟩ acc.updates,
    timers := timers1 ++ [⟨tid, index, now + dwellDuration, TimerKind.dwell⟩],
    nextId := acc.nextId + 1 }

/-- The spread merge { ...newStates, ...squaresToUpdate }: entries of
squaresToUpdate override those of newStates. -/
def mergeSquares (orig updates : SquaresMap) : SquaresMap :=
  updates.foldl (fun m kv => setSquare kv.1 kv.2 m) orig

/-- handleMouseMove of the most complete variant: computes the pointer cell,
returns unchanged when it equals lastSquareRef.current, otherwise records it,
and runs the for-loop over the selected neighbor subset.  The
shuffle-then-slice subselection is the choose parameter. -/
def handleMouseMove (cfg : GridConfig) (choose : List ℤ → List ℤ)
    (x y : ℚ) (s : AnimState) : AnimState :=
  let current := currentSquare cfg x y
  if s.lastSquare = some current then s
  else
    let randomNeighbors := choose (getNeighbors cfg x y)
    let acc := randomNeighbors.foldl (processNeighbor s.now s.squares)
      ⟨[], s.timers, s.nextTimerId⟩
    { squares := mergeSquares s.squares acc.updates,
      lastSquare := some current,
      timers := acc.timers,
      nextTimerId := acc.nextId,
      now := s.now }

/-- Body of the dwell timer callback: if the cell is still highlighted, move
it to fading and schedule the removal timer (500) whose handle replaces the
record's timeoutId; otherwise leave the state unchanged. -/
def runDwell (index : ℤ) (s : AnimState) : AnimState :=
  match getSquare index s.squares with
  | some sq =>
    if sq.state = Phase.highlighted then
      let removalTid := s.nextTimerId
      { squares := setSquare index ⟨Phase.fading, some removalTid⟩ s.squares,
        lastSquare := s.lastSquare,
        timers := s.timers ++
          [⟨removalTid, index, s.now + fadeRemovalDuration, TimerKind.removal⟩],
        nextTimerId := s.nextTimerId + 1,
        now := s.now }
    else s
  | none => s

/-- Body of the removal timer callback: if the cell is still fading, delete
its entry; otherwise leave the state unchanged. -/
def runRemoval (index : ℤ) (s : AnimState) : AnimState :=
  match getSquare index s.squares with
  | some sq =>
    if sq.state = Phase.fading then
      { s with squares := eraseSquare index s.squares }
    else s
  | none => s

/-- Lookup of a pending timer by handle. -/
def findTimer (tid : ℕ) (ts : List Timer) : Option Timer :=
  ts.find? fun t => t.id == tid

/-- The host runtime firing a timer: the timer stops being pending, the
clock reaches its fire time, and its callback body runs.  Firing a handle
with no pending timer is a no-op. -/
def fireTimer (tid : ℕ) (s : AnimState) : AnimState :=
  match findTimer tid s.timers with
  | none => s
  | some t =>
    let s1 : AnimState :=
      { squares := s.squares, lastSquare := s.lastSquare,
        timers := clearTimeout tid s.timers,
        nextTimerId := s.nextTimerId, now := t.fireAt }
    match t.kind with
    | TimerKind.dwell => runDwell t.index s1
    | TimerKind.removal => runRemoval t.index s1

/-- Accumulator of the for-loop of handleMouseLeave: the newStates record
being mutated in place, and the timer table and counter. -/
structure LeaveAcc where
  squares : SquaresMap
  timers : List Timer
  nextId : ℕ
deriving DecidableEq, Repr

/-- One iteration of the for-loop of handleMouseLeave over Object.keys:
cancels the cell's recorded timer, then, when the cell is highlighted, moves
it to fading and schedules the removal timer (100) whose handle replaces the
record's timeoutId. -/
def processLeaveKey (now : ℕ) (acc : LeaveAcc) (key : ℤ) : LeaveAcc :=
  match getSquare key acc.squares with
  | none => acc
  | some sq =>
    let timers1 := clearRecorded (some sq) acc.timers
    if sq.state = Phase.highlighted then
      let removalTid := acc.nextId
      { squares := setSquare key ⟨Phase.fading, some removalTid⟩ acc.squares,
        timers := timers1 ++
          [⟨removalTid, key, now + leaveFadeDuration, TimerKind.removal⟩],
        nextId := acc.nextId + 1 }
    else
      { acc with timers := timers1 }

/-- handleMouseLeave of the most complete variant: iterates over every key
of squaresState running the per-key step, and clears lastSquareRef. -/
def handleMouseLeave (s : AnimState) : AnimState :=
  let acc := (s.squares.map Prod.fst).foldl (processLeaveKey s.now)
    ⟨s.squares, s.timers, s.nextTimerId⟩
  { squares := acc.squares, lastSquare := none, timers := acc.timers,
    nextTimerId := acc.nextId, now := s.now }

/-- The unmount cleanup hook: for every record of squaresState, cancels its
recorded timer handle if present. -/
def cleanup (s : AnimState) : AnimState :=
  { s with timers := s.squares.foldl (fun ts kv => clearRecorded (some kv.2) ts) s.timers }

/-- useIsMobile: the viewport is narrow when window.innerWidth < maxWidth
(default threshold 1024). -/
def useIsMobile (maxWidth viewportWidth : ℕ) : Bool :=
  viewportWidth < maxWidth

/-- Handler attachment of the breakpoint-consulting variant:
onMouseMove={isMobile ? undefined : handler} (likewise onMouseLeave). -/
def attachedHandler (isMobile : Bool) (handler : AnimState → AnimState) :
    Option (AnimState → AnimState) :=
  if isMobile then none else some handler

/-- Browser event dispatch: an attached handler runs on the state; an
unattached (undefined) one leaves it untouched. -/
def dispatchEvent (h : Option (AnimState → AnimState)) (s : AnimState) : AnimState :=
  match h with
  | none => s
  | some f => f s

/-- The states one component instance can reach: the initial state, followed
by any interleaving of mouse moves (whose neighbor subselection is a
duplicate-free subsequence of the neighbor list, as shuffle-then-slice
produces), mouse leaves, timer firings, and idle waiting. -/
inductive Reachable (cfg : GridConfig) : AnimState → Prop where
  | init : Reachable cfg initState
  | move (choose : List ℤ → List ℤ) (x y : ℚ) (s : AnimState) :
      Reachable cfg s →
      (choose (getNeighbors cfg x y)).Nodup →
      (∀ i ∈ choose (getNeighbors cfg x y), i ∈ getNeighbors cfg x y) →
      Reachable cfg (handleMouseMove cfg choose x y s)
  | leave (s : AnimState) : Reachable cfg s → Reachable cfg (handleMouseLeave s)
  | fire (tid : ℕ) (s : AnimState) : Reachable cfg s → Reachable cfg (fireTimer tid s)
  | wait (d : ℕ) (s : AnimState) : Reachable cfg s →
      Reachable cfg { s with now := s.now + d }

/-- Keys of the squaresState record are pairwise distinct. -/
def keysNodup (m : SquaresMap) : Prop := (m.map Prod.fst).Nodup

/-- A pending timer is recorded: the record of the cell its callback closes
over holds exactly its handle in timeoutId. -/
def RecordsTimer (m : SquaresMap) (t : Timer) : Prop :=
  ∃ sq, getSquare t.index m = some sq ∧ sq.timeoutId = some t.id

/-- The state invariant: distinct record keys; every pending timer is
recorded at its cell and has a handle below the counter; pending handles are
pairwise distinct; every recorded handle is below the counter. -/
def StateInv (s : AnimState) : Prop :=
  keysNodup s.squares ∧
  (∀ t ∈ s.timers, RecordsTimer s.squares t ∧ t.id < s.nextTimerId) ∧
  (s.timers.map Timer.id).Nodup ∧
  (∀ k sq, getSquare k s.squares = some sq →
    ∀ tid, sq.timeoutId = some tid → tid < s.nextTimerId)

/-- Intermediate invariant of the for-loop of handleMouseMove, over the
pre-loop snapshot orig, the initial timers ts0, the initial counter n0 and
the clock now: done lists the neighbor indices already processed. -/
def MoveLoopInv (orig : SquaresMap) (ts0 : List Timer) (n0 now : ℕ)
    (done : List ℤ) (acc : MoveAcc) : Prop :=
  keysNodup acc.updates ∧
  (∀ k : ℤ, (getSquare k acc.updates).isSome ↔ k ∈ done) ∧
  n0 ≤ acc.nextId ∧
  (∀ t ∈ acc.timers,
      (t ∈ ts0 ∧ t.id < n0 ∧ t.index ∉ done) ∨
      (n0 ≤ t.id ∧ t.id < acc.nextId ∧ t.kind = TimerKind.dwell ∧
        t.fireAt = now + dwellDuration ∧ t.index ∈ done ∧
        getSquare t.index acc.updates = some ⟨Phase.highlighted, some t.id⟩)) ∧
  (acc.timers.map Timer.id).Nodup ∧
  (∀ k ∈ done, ∃ tid : ℕ,
      getSquare k acc.updates = some ⟨Phase.highlighted, some tid⟩ ∧
      ∃ t ∈ acc.timers, t.id = tid ∧ t.index = k ∧ t.kind = TimerKind.dwell ∧
        t.fireAt = now + dwellDuration)

/-- Intermediate invariant of the for-loop of handleMouseLeave, over the
pre-loop record orig, the initial timers ts0, the initial counter n0 and the
clock now: done lists the record keys already processed. -/
def LeaveLoopInv (orig : SquaresMap) (ts0 : List Timer) (n0 now : ℕ)
    (done : List ℤ) (acc : LeaveAcc) : Prop :=
  acc.squares.map Prod.fst = orig.map Prod.fst ∧
  (∀ k : ℤ, k ∉ done → getSquare k acc.squares = getSquare k orig) ∧
  n0 ≤ acc.nextId ∧
  (∀ t ∈ acc.timers,
      (t ∈ ts0 ∧ t.id < n0 ∧ t.index ∉ done) ∨
      (n0 ≤ t.id ∧ t.id < acc.nextId ∧ t.kind = TimerKind.removal ∧
        t.fireAt = now + leaveFadeDuration ∧ t.index ∈ done ∧
        getSquare t.index acc.squares = some ⟨Phase.fading, some t.id⟩)) ∧
  (acc.timers.map Timer.id).Nodup ∧
  (∀ k ∈ done, ∀ sq0 : SquareState, getSquare k orig = some sq0 →
      (sq0.state = Phase.highlighted →
        ∃ tid : ℕ, getSquare k acc.squares = some ⟨Phase.fading, some tid⟩ ∧
          ∃ t ∈ acc.timers, t.id = tid ∧ t.index = k ∧
            t.kind = TimerKind.removal ∧ t.fireAt = now + leaveFadeDuration) ∧
      (sq0.state = Phase.fading →
        getSquare k acc.squares = some sq0 ∧ ∀ t ∈ acc.timers, t.index ≠ k))

/-- Demo configuration for concrete runs: two cells side by side, each
10 by 10 (the 2-by-1 scenario of the specification). -/
def cfgDemo : GridConfig := { width := 10, height := 10, horizontal := 2, vertical := 1 }

/-- Demo run, first step: the pointer enters (5, 5) of the demo grid; the
identity selection keeps the whole neighbor list. -/
def sMoveDemo : AnimState := handleMouseMove cfgDemo (fun l => l) 5 5 initState

/-- Demo run, second step: the dwell timer (handle 1) fires. -/
def sDwellDemo : AnimState := fireTimer 1 sMoveDemo

/-- Demo run, third step: the pointer leaves the grid. -/
def sLeaveDemo : AnimState := handleMouseLeave sDwellDemo

/-- A state holding one stale fading record with no pending timer. -/
def sStaleDemo : AnimState :=
  { squares := [(0, ⟨Phase.fading, none⟩)], lastSquare := none, timers := [],
    nextTimerId := 1, now := 0 }

theorem getSquare_setSquare_self (k : ℤ) (v : SquareState) (m : SquaresMap) :
    getSquare k (setSquare k v m) = some v := by
  induction m with
  | nil => simp [setSquare, getSquare]
  | cons kv rest ih =>
    by_cases h : kv.1 = k
    · simp [setSquare, h, getSquare]
    · simp [setSquare, h, getSquare, ih]

theorem getSquare_setSquare_ne {k' k : ℤ} (v : SquareState) (m : SquaresMap)
    (h : k' ≠ k) : getSquare k' (setSquare k v m) = getSquare k' m := by
  induction m with
  | nil =>
    simp only [setSquare, getSquare]
    rw [if_neg (fun hh : k = k' => h hh.symm)]
  | cons kv rest ih =>
    by_cases hk : kv.1 = k
    · simp only [setSquare, if_pos hk, getSquare]
      rw [if_neg (fun hh : k = k' => h hh.symm), if_neg (fun hh : kv.1 = k' => h (hh.symm.trans hk))]
    · simp only [setSquare, if_neg hk, getSquare]
      by_cases hk' : kv.1 = k'
      · simp [hk']
      · simp [hk', ih]

theorem getSquare_eq_none_iff (k : ℤ) (m : SquaresMap) :
    getSquare k m = none ↔ k ∉ m.map Prod.fst := by
  induction m with
  | nil => simp [getSquare]
  | cons kv rest ih =>
    by_cases h : kv.1 = k
    · simp [getSquare, h]
    · simp [getSquare, h, ih, Ne.symm h]

theorem getSquare_some_mem {k : ℤ} {sq : SquareState} {m : SquaresMap}
    (h : getSquare k m = some sq) : (k, sq) ∈ m := by
  induction m with
  | nil => simp [getSquare] at h
  | cons kv rest ih =>
    by_cases hk : kv.1 = k
    · simp only [getSquare, if_pos hk] at h
      obtain rfl : kv.2 = sq := Option.some_injective _ h
      have hkv : kv = (k, kv.2) := Prod.ext_iff.mpr ⟨hk, rfl⟩
      exact List.mem_cons.mpr (Or.inl hkv.symm)
    · simp only [getSquare, if_neg hk] at h
      exact List.mem_cons_of_mem _ (ih h)

theorem map_fst_setSquare_mem {k : ℤ} (v : SquareState) {m : SquaresMap}
    (h : k ∈ m.map Prod.fst) :
    (setSquare k v m).map Prod.fst = m.map Prod.fst := by
  induction m with
  | nil => simp at h
  | cons kv rest ih =>
    by_cases hk : kv.1 = k
    · simp [setSquare, hk]
    · have h' : k ∈ rest.map Prod.fst := by
        simp only [List.map_cons, List.mem_cons] at h
        exact h.resolve_left (fun hh => hk hh.symm)
      simp [setSquare, hk, ih h']

theorem map_fst_setSquare_not_mem {k : ℤ} (v : SquareState) {m : SquaresMap}
    (h : k ∉ m.map Prod.fst) :
    (setSquare k v m).map Prod.fst = m.map Prod.fst ++ [k] := by
  induction m with
  | nil => simp [setSquare]
  | cons kv rest ih =>
    simp only [List.map_cons, List.mem_cons] at h
    push_neg at h
    have hne : ¬kv.1 = k := fun hh => h.1 hh.symm
    simp only [setSquare, if_neg hne, List.map_cons, ih h.2, List.cons_append]

theorem keysNodup_setSquare (k : ℤ) (v : SquareState) {m : SquaresMap}
    (h : keysNodup m) : keysNodup (setSquare k v m) := by
  by_cases hm : k ∈ m.map Prod.fst
  · unfold keysNodup
    rw [map_fst_setSquare_mem v hm]
    exact h
  · unfold keysNodup
    rw [map_fst_setSquare_not_mem v hm]
    have h' : (m.map Prod.fst).Nodup := h
    rw [List.nodup_append]
    refine ⟨h', List.nodup_singleton k, ?_⟩
    intro a ha hb
    rw [List.mem_singleton] at hb
    exact hm (hb ▸ ha)

theorem getSquare_eraseSquare_self (k : ℤ) (m : SquaresMap) :
    getSquare k (eraseSquare k m) = none := by
  induction m with
  | nil => simp [eraseSquare, getSquare]
  | cons kv rest ih =>
    by_cases h : kv.1 = k
    · rw [show eraseSquare k (kv :: rest) = eraseSquare k rest from by
        simp [eraseSquare, List.filter_cons, h]]
      exact ih
    · rw [show eraseSquare k (kv :: rest) = kv :: eraseSquare k rest from by
        simp [eraseSquare, List.filter_cons, h]]
      simp only [getSquare, if_neg h]
      exact ih

theorem getSquare_eraseSquare_ne {k' k : ℤ} (m : SquaresMap) (h : k' ≠ k) :
    getSquare k' (eraseSquare k m) = getSquare k' m := by
  induction m with
  | nil => simp [eraseSquare]
  | cons kv rest ih =>
    by_cases hk : kv.1 = k
    · have hne : ¬kv.1 = k' := fun hh => h (hh.symm.trans hk)
      rw [show eraseSquare k (kv :: rest) = eraseSquare k rest from by
        simp [eraseSquare, List.filter_cons, hk]]
      rw [ih]
      simp only [getSquare, if_neg hne]
    · rw [show eraseSquare k (kv :: rest) = kv :: eraseSquare k rest from by
        simp [eraseSquare, List.filter_cons, hk]]
      by_cases hk' : kv.1 = k'
      · simp only [getSquare, if_pos hk']
      · simp only [getSquare, if_neg hk']
        exact ih

theorem keysNodup_eraseSquare (k : ℤ) {m : SquaresMap} (h : keysNodup m) :
    keysNodup (eraseSquare k m) :=
  h.sublist ((List.filter_sublist m).map Prod.fst)

theorem mem_clearTimeout {t : Timer} {tid : ℕ} {ts : List Timer} :
    t ∈ clearTimeout tid ts ↔ t ∈ ts ∧ t.id ≠ tid := by
  simp [clearTimeout, List.mem_filter]

theorem mem_of_mem_clearRecorded {t : Timer} {o : Option SquareState} {ts : List Timer}
    (h : t ∈ clearRecorded o ts) : t ∈ ts := by
  match o with
  | none => exact h
  | some sq =>
    match hs : sq.timeoutId with
    | none => simpa [clearRecorded, hs] using h
    | some tid =>
      rw [clearRecorded, hs] at h
      exact (mem_clearTimeout.mp h).1

theorem ids_nodup_clearTimeout (tid : ℕ) {ts : List Timer}
    (h : (ts.map Timer.id).Nodup) : ((clearTimeout tid ts).map Timer.id).Nodup :=
  h.sublist ((List.filter_sublist ts).map Timer.id)

theorem ids_nodup_clearRecorded (o : Option SquareState) {ts : List Timer}
    (h : (ts.map Timer.id).Nodup) : ((clearRecorded o ts).map Timer.id).Nodup := by
  match o with
  | none => exact h
  | some sq =>
    match hs : sq.timeoutId with
    | none => simpa [clearRecorded, hs] using h
    | some tid =>
      rw [clearRecorded, hs]
      exact ids_nodup_clearTimeout tid h

theorem findTimer_some {tid : ℕ} {ts : List Timer} {t : Timer}
    (h : findTimer tid ts = some t) : t ∈ ts ∧ t.id = tid := by
  refine ⟨List.mem_of_find?_eq_some h, ?_⟩
  have := List.find?_some h
  simpa using this

theorem findTimer_eq_some_of_mem {ts : List Timer} {t : Timer}
    (hnd : (ts.map Timer.id).Nodup) (ht : t ∈ ts) : findTimer t.id ts = some t := by
  induction ts with
  | nil => simp at ht
  | cons u rest ih =>
    by_cases hu : u.id = t.id
    · have hut : u = t := by
        rcases List.mem_cons.mp ht with h | h
        · exact h.symm
        · exfalso
          have : t.id ∈ rest.map Timer.id := List.mem_map_of_mem Timer.id h
          rw [← hu] at this
          exact (List.nodup_cons.mp (by simpa using hnd)).1 this
      rw [findTimer, List.find?_cons_of_pos _ (by simp [hu])]
      rw [hut]
    · have ht' : t ∈ rest := by
        rcases List.mem_cons.mp ht with h | h
        · exact absurd (congrArg Timer.id h.symm) hu
        · exact h
      have hnd' : (rest.map Timer.id).Nodup := (List.nodup_cons.mp (by simpa using hnd)).2
      rw [findTimer, List.find?_cons_of_neg _ (by simp [hu])]
      exact ih hnd' ht'

theorem timer_id_inj {ts : List Timer} (hnd : (ts.map Timer.id).Nodup)
    {t u : Timer} (ht : t ∈ ts) (hu : u ∈ ts) (h : t.id = u.id) : t = u :=
  List.inj_on_of_nodup_map hnd ht hu h

theorem floorDiv_bounds {w x : ℚ} {n : ℕ} (hw : 0 < w) (hx0 : 0 ≤ x)
    (hxn : x < w * n) : 0 ≤ ⌊x / w⌋ ∧ ⌊x / w⌋ < (n : ℤ) := by
  constructor
  · exact Int.floor_nonneg.mpr (div_nonneg hx0 hw.le)
  · rw [Int.floor_lt]
    rw [div_lt_iff₀ hw]
    push_cast
    linarith

/-- C1: for every pointer coordinate inside the grid's bounding box, the
cell index computed by the mouse-move handler equals
floor(y/height)*horizontal + floor(x/width), and it lies in
[0, horizontal*vertical). -/
theorem c1_cell_index_formula_and_range (cfg : GridConfig) (x y : ℚ)
    (hw : 0 < cfg.width) (hh : 0 < cfg.height)
    (hx0 : 0 ≤ x) (hx1 : x < cfg.width * (cfg.horizontal : ℚ))
    (hy0 : 0 ≤ y) (hy1 : y < cfg.height * (cfg.vertical : ℚ)) :
    currentSquare cfg x y =
      ⌊y / cfg.height⌋ * (cfg.horizontal : ℤ) + ⌊x / cfg.width⌋ ∧
    0 ≤ currentSquare cfg x y ∧
    currentSquare cfg x y < (cfg.horizontal : ℤ) * (cfg.vertical : ℤ) := by
  obtain ⟨hc0, hc1⟩ := floorDiv_bounds hw hx0 hx1
  obtain ⟨hr0, hr1⟩ := floorDiv_bounds hh hy0 hy1
  refine ⟨rfl, ?_, ?_⟩
  · exact add_nonneg (mul_nonneg hr0 (Int.natCast_nonneg _)) hc0
  · show rowOf cfg y * (cfg.horizontal : ℤ) + colOf cfg x < _
    unfold rowOf colOf
    have h2 : (⌊y / cfg.height⌋ + 1) * (cfg.horizontal : ℤ) ≤
        (cfg.vertical : ℤ) * (cfg.horizontal : ℤ) :=
      mul_le_mul_of_nonneg_right (by omega) (Int.natCast_nonneg _)
    calc ⌊y / cfg.height⌋ * (cfg.horizontal : ℤ) + ⌊x / cfg.width⌋
        < ⌊y / cfg.height⌋ * (cfg.horizontal : ℤ) + (cfg.horizontal : ℤ) := by omega
      _ = (⌊y / cfg.height⌋ + 1) * (cfg.horizontal : ℤ) := by ring
      _ ≤ (cfg.vertical : ℤ) * (cfg.horizontal : ℤ) := h2
      _ = (cfg.horizontal : ℤ) * (cfg.vertical : ℤ) := mul_comm _ _

theorem demo_width_pos : (0 : ℚ) < cfgDemo.width := by norm_num [cfgDemo]

theorem demo_height_pos : (0 : ℚ) < cfgDemo.height := by norm_num [cfgDemo]

theorem demo_x_nonneg : (0 : ℚ) ≤ 5 := by norm_num

theorem demo_x_lt : (5 : ℚ) < cfgDemo.width * (cfgDemo.horizontal : ℚ) := by
  norm_num [cfgDemo]

theorem demo_y_lt : (5 : ℚ) < cfgDemo.height * (cfgDemo.vertical : ℚ) := by
  norm_num [cfgDemo]

/-- Witness for C1 at the demo grid with the pointer at (5, 5). -/
theorem c1_cell_index_formula_and_range_witness :
    ((0 : ℚ) < cfgDemo.width ∧ (0 : ℚ) < cfgDemo.height ∧
      (0 : ℚ) ≤ 5 ∧ (5 : ℚ) < cfgDemo.width * (cfgDemo.horizontal : ℚ) ∧
      (5 : ℚ) < cfgDemo.height * (cfgDemo.vertical : ℚ)) ∧
    (currentSquare cfgDemo 5 5 =
      ⌊(5 : ℚ) / cfgDemo.height⌋ * (cfgDemo.horizontal : ℤ) + ⌊(5 : ℚ) / cfgDemo.width⌋ ∧
    0 ≤ currentSquare cfgDemo 5 5 ∧
    currentSquare cfgDemo 5 5 < (cfgDemo.horizontal : ℤ) * (cfgDemo.vertical : ℤ)) :=
  ⟨⟨demo_width_pos, demo_height_pos, demo_x_nonneg, demo_x_lt, demo_y_lt⟩,
    c1_cell_index_formula_and_range cfgDemo 5 5 demo_width_pos demo_height_pos
      demo_x_nonneg demo_x_lt demo_x_nonneg demo_y_lt⟩

/-- C2: for every in-bounds pointer coordinate, getNeighbors returns exactly
the indices r*horizontal+c of the in-bounds cells among the 8 Moore-adjacent
positions of the pointer's cell, and never the pointer's own cell index. -/
theorem c2_neighbors_moore_characterization (cfg : GridConfig) (x y : ℚ)
    (hw : 0 < cfg.width) (hh : 0 < cfg.height)
    (hx0 : 0 ≤ x) (hx1 : x < cfg.width * (cfg.horizontal : ℚ))
    (hy0 : 0 ≤ y) (hy1 : y < cfg.height * (cfg.vertical : ℚ)) :
    (∀ idx : ℤ, idx ∈ getNeighbors cfg x y ↔
      ∃ r c : ℤ, 0 ≤ r ∧ r < (cfg.vertical : ℤ) ∧
        0 ≤ c ∧ c < (cfg.horizontal : ℤ) ∧
        rowOf cfg y - 1 ≤ r ∧ r ≤ rowOf cfg y + 1 ∧
        colOf cfg x - 1 ≤ c ∧ c ≤ colOf cfg x + 1 ∧
        ¬(r = rowOf cfg y ∧ c = colOf cfg x) ∧
        idx = r * (cfg.horizontal : ℤ) + c) ∧
    currentSquare cfg x y ∉ getNeighbors cfg x y := by
  have hC : 0 ≤ colOf cfg x ∧ colOf cfg x < (cfg.horizontal : ℤ) :=
    floorDiv_bounds hw hx0 hx1
  have hR : 0 ≤ rowOf cfg y ∧ rowOf cfg y < (cfg.vertical : ℤ) :=
    floorDiv_bounds hh hy0 hy1
  have hmem : ∀ idx : ℤ, idx ∈ getNeighbors cfg x y ↔
      ∃ r c : ℤ, 0 ≤ r ∧ r < (cfg.vertical : ℤ) ∧
        0 ≤ c ∧ c < (cfg.horizontal : ℤ) ∧
        rowOf cfg y - 1 ≤ r ∧ r ≤ rowOf cfg y + 1 ∧
        colOf cfg x - 1 ≤ c ∧ c ≤ colOf cfg x + 1 ∧
        ¬(r = rowOf cfg y ∧ c = colOf cfg x) ∧
        idx = r * (cfg.horizontal : ℤ) + c := by
    intro idx
    constructor
    · intro hin
      simp only [getNeighbors, List.mem_filterMap] at hin
      obtain ⟨ij, hij, hf⟩ := hin
      have hbnd : (-1 ≤ ij.1 ∧ ij.1 ≤ 1 ∧ -1 ≤ ij.2 ∧ ij.2 ≤ 1) ∧
          ¬(ij.1 = 0 ∧ ij.2 = 0) := by
        simp only [mooreOffsets] at hij
        fin_cases hij <;> norm_num
      rw [ite_eq_iff] at hf
      rcases hf with ⟨hcond, hval⟩ | ⟨_, hval⟩
      · obtain ⟨h1, h2, h3, h4⟩ := hcond
        refine ⟨rowOf cfg y + ij.1, colOf cfg x + ij.2,
          h1, h2, h3, h4, by omega, by omega, by omega, by omega, by omega, ?_⟩
        exact (Option.some_inj.mp hval).symm
      · exact absurd hval (by simp)
    · rintro ⟨r, c, hr0', hr1', hc0', hc1', ha1, ha2, ha3, ha4, hne, hidx⟩
      simp only [getNeighbors, List.mem_filterMap]
      refine ⟨(r - rowOf cfg y, c - colOf cfg x), ?_, ?_⟩
      · simp only [mooreOffsets, List.mem_cons, List.not_mem_nil, or_false,
          Prod.mk.injEq]
        omega
      · simp only
        have e1 : rowOf cfg y + (r - rowOf cfg y) = r := by ring
        have e2 : colOf cfg x + (c - colOf cfg x) = c := by ring
        rw [e1, e2, if_pos ⟨hr0', hr1', hc0', hc1'⟩]
        exact congrArg some hidx.symm
  refine ⟨hmem, ?_⟩
  intro hself
  obtain ⟨r, c, hr0', hr1', hc0', hc1', ha1, ha2, ha3, ha4, hne, hidx⟩ :=
    (hmem (currentSquare cfg x y)).mp hself
  have hcur : currentSquare cfg x y =
      rowOf cfg y * (cfg.horizontal : ℤ) + colOf cfg x := rfl
  rw [hcur] at hidx
  have hdr : r = rowOf cfg y ∨ r = rowOf cfg y + 1 ∨ r = rowOf cfg y - 1 := by omega
  rcases hdr with hr | hr | hr
  · rw [hr] at hidx
    have hc : c = colOf cfg x := by linarith
    exact hne ⟨hr, hc⟩
  · rw [hr] at hidx
    have hcol : colOf cfg x = c + (cfg.horizontal : ℤ) := by linear_combination hidx
    linarith [hC.2, hc0']
  · rw [hr] at hidx
    have hcol : c = colOf cfg x + (cfg.horizontal : ℤ) := by linear_combination - hidx
    linarith [hC.1, hc1']

/-- Witness for C2 at the demo grid with the pointer at (5, 5). -/
theorem c2_neighbors_moore_characterization_witness :
    ((0 : ℚ) < cfgDemo.width ∧ (0 : ℚ) < cfgDemo.height ∧
      (0 : ℚ) ≤ 5 ∧ (5 : ℚ) < cfgDemo.width * (cfgDemo.horizontal : ℚ) ∧
      (5 : ℚ) < cfgDemo.height * (cfgDemo.vertical : ℚ)) ∧
    ((∀ idx : ℤ, idx ∈ getNeighbors cfgDemo 5 5 ↔
      ∃ r c : ℤ, 0 ≤ r ∧ r < (cfgDemo.vertical : ℤ) ∧
        0 ≤ c ∧ c < (cfgDemo.horizontal : ℤ) ∧
        rowOf cfgDemo 5 - 1 ≤ r ∧ r ≤ rowOf cfgDemo 5 + 1 ∧
        colOf cfgDemo 5 - 1 ≤ c ∧ c ≤ colOf cfgDemo 5 + 1 ∧
        ¬(r = rowOf cfgDemo 5 ∧ c = colOf cfgDemo 5) ∧
        idx = r * (cfgDemo.horizontal : ℤ) + c) ∧
    currentSquare cfgDemo 5 5 ∉ getNeighbors cfgDemo 5 5) :=
  ⟨⟨demo_width_pos, demo_height_pos, demo_x_nonneg, demo_x_lt, demo_y_lt⟩,
    c2_neighbors_moore_characterization cfgDemo 5 5 demo_width_pos demo_height_pos
      demo_x_nonneg demo_x_lt demo_x_nonneg demo_y_lt⟩

theorem colOf_demo : colOf cfgDemo 5 = 0 := by
  unfold colOf cfgDemo
  rw [Int.floor_eq_iff] <;> norm_num

theorem rowOf_demo : rowOf cfgDemo 5 = 0 := by
  unfold rowOf cfgDemo
  rw [Int.floor_eq_iff] <;> norm_num

theorem currentSquare_demo : currentSquare cfgDemo 5 5 = 0 := by
  rw [currentSquare, colOf_demo, rowOf_demo]
  norm_num

theorem getNeighbors_demo : getNeighbors cfgDemo 5 5 = [1] := by
  simp only [getNeighbors, colOf_demo, rowOf_demo]
  decide

theorem sMoveDemo_eval : sMoveDemo =
    { squares := [(1, ⟨Phase.highlighted, some 1⟩)], lastSquare := some 0,
      timers := [⟨1, 1, 400, TimerKind.dwell⟩], nextTimerId := 2, now := 0 } := by
  rw [sMoveDemo, handleMouseMove, currentSquare_demo, getNeighbors_demo]
  decide

theorem sDwellDemo_eval : sDwellDemo =
    { squares := [(1, ⟨Phase.fading, some 2⟩)], lastSquare := some 0,
      timers := [⟨2, 1, 900, TimerKind.removal⟩], nextTimerId := 3, now := 400 } := by
  rw [sDwellDemo, sMoveDemo_eval]
  decide

theorem sLeaveDemo_eval : sLeaveDemo =
    { squares := [(1, ⟨Phase.fading, some 2⟩)], lastSquare := none,
      timers := [], nextTimerId := 3, now := 400 } := by
  rw [sLeaveDemo, sDwellDemo_eval]
  decide

theorem reach_sMoveDemo : Reachable cfgDemo sMoveDemo :=
  Reachable.move (fun l => l) 5 5 initState Reachable.init
    (by rw [getNeighbors_demo]; decide)
    (by rw [getNeighbors_demo]; exact fun i hi => hi)

theorem reach_sDwellDemo : Reachable cfgDemo sDwellDemo :=
  Reachable.fire 1 sMoveDemo reach_sMoveDemo

theorem reach_sLeaveDemo : Reachable cfgDemo sLeaveDemo :=
  Reachable.leave sDwellDemo reach_sDwellDemo

/-- C6: a pointer-move event whose computed cell index equals the last
recorded hovered index is a no-op: the whole component state (squaresState,
pending timers, handle counter, lastSquareRef) is returned unchanged. -/
theorem c6_same_cell_move_is_noop (cfg : GridConfig) (choose : List ℤ → List ℤ)
    (x y : ℚ) (s : AnimState)
    (h : s.lastSquare = some (currentSquare cfg x y)) :
    handleMouseMove cfg choose x y s = s := by
  simp only [handleMouseMove]
  rw [if_pos h]

/-- Witness for C6: a state whose last hovered index is the demo pointer
cell is untouched by a further move in that cell. -/
theorem c6_same_cell_move_is_noop_witness :
    ({ initState with lastSquare := some (currentSquare cfgDemo 5 5) } : AnimState).lastSquare
      = some (currentSquare cfgDemo 5 5) ∧
    handleMouseMove cfgDemo (fun l => l) 5 5
      { initState with lastSquare := some (currentSquare cfgDemo 5 5) } =
      { initState with lastSquare := some (currentSquare cfgDemo 5 5) } :=
  ⟨rfl, c6_same_cell_move_is_noop cfgDemo (fun l => l) 5 5
    { initState with lastSquare := some (currentSquare cfgDemo 5 5) } rfl⟩

/-- C9: below the 1024 threshold the breakpoint signal reports mobile, and
with the handlers left unattached neither a pointer-move nor a pointer-leave
event changes the component state. -/
theorem c9_mobile_disables_pointer_interactivity (w : ℕ) (hw : w < 1024)
    (s : AnimState) (onMove onLeave : AnimState → AnimState) :
    useIsMobile 1024 w = true ∧
    dispatchEvent (attachedHandler (useIsMobile 1024 w) onMove) s = s ∧
    dispatchEvent (attachedHandler (useIsMobile 1024 w) onLeave) s = s := by
  have hm : useIsMobile 1024 w = true := by
    simp [useIsMobile, hw]
  refine ⟨hm, ?_, ?_⟩ <;> rw [hm] <;> rfl

/-- Witness for C9 at viewport width 800 with the demo handlers. -/
theorem c9_mobile_disables_pointer_interactivity_witness :
    800 < 1024 ∧
    (useIsMobile 1024 800 = true ∧
    dispatchEvent (attachedHandler (useIsMobile 1024 800)
      (handleMouseMove cfgDemo (fun l => l) 5 5)) initState = initState ∧
    dispatchEvent (attachedHandler (useIsMobile 1024 800) handleMouseLeave)
      initState = initState) :=
  ⟨by decide, c9_mobile_disables_pointer_interactivity 800 (by decide) initState
    (handleMouseMove cfgDemo (fun l => l) 5 5) handleMouseLeave⟩

/-- C10: stale timer callbacks are no-ops on the activation mapping: the
dwell callback leaves the mapping unchanged unless the cell is still
highlighted (which it moves to fading), and the removal callback leaves it
unchanged unless the cell is still fading (which it deletes). -/
theorem c10_stale_timer_callbacks_noop (i : ℤ) (s : AnimState) :
    (getSquare i s.squares = none →
      (runDwell i s).squares = s.squares ∧ (runRemoval i s).squares = s.squares) ∧
    (∀ sq, getSquare i s.squares = some sq →
      (sq.state ≠ Phase.highlighted → (runDwell i s).squares = s.squares) ∧
      (sq.state ≠ Phase.fading → (runRemoval i s).squares = s.squares) ∧
      (sq.state = Phase.highlighted →
        getSquare i (runDwell i s).squares =
          some ⟨Phase.fading, some s.nextTimerId⟩) ∧
      (sq.state = Phase.fading →
        getSquare i (runRemoval i s).squares = none)) := by
  constructor
  · intro h
    rw [runDwell, runRemoval, h]
    exact ⟨rfl, rfl⟩
  · intro sq h
    refine ⟨?_, ?_, ?_, ?_⟩
    · intro hs
      rw [runDwell, h]
      simp [hs]
    · intro hs
      rw [runRemoval, h]
      simp [hs]
    · intro hs
      rw [runDwell, h]
      simp only [if_pos hs]
      exact getSquare_setSquare_self i _ s.squares
    · intro hs
      rw [runRemoval, h]
      simp only [if_pos hs]
      exact getSquare_eraseSquare_self i s.squares

/-- Witness for C10: at the stale demo state, firing the dwell callback for
the fading cell 0 and the removal callback for the absent cell 1 leaves the
mapping unchanged, and the removal callback deletes the fading cell 0. -/
theorem c10_stale_timer_callbacks_noop_witness :
    getSquare 0 sStaleDemo.squares = some ⟨Phase.fading, none⟩ ∧
    getSquare 1 sStaleDemo.squares = none ∧
    (runDwell 0 sStaleDemo).squares = sStaleDemo.squares ∧
    (runDwell 1 sStaleDemo).squares = sStaleDemo.squares ∧
    (runRemoval 1 sStaleDemo).squares = sStaleDemo.squares ∧
    getSquare 0 (runRemoval 0 sStaleDemo).squares = none :=
  ⟨by decide, by decide,
    ((c10_stale_timer_callbacks_noop 0 sStaleDemo).2 ⟨Phase.fading, none⟩
      (by decide)).1 (by decide),
    ((c10_stale_timer_callbacks_noop 1 sStaleDemo).1 (by decide)).1,
    ((c10_stale_timer_callbacks_noop 1 sStaleDemo).1 (by decide)).2,
    ((c10_stale_timer_callbacks_noop 0 sStaleDemo).2 ⟨Phase.fading, none⟩
      (by decide)).2.2.2 (by decide)⟩

theorem getSquare_isSome_of_mem_keys {k : ℤ} {m : SquaresMap}
    (h : k ∈ m.map Prod.fst) : ∃ sq, getSquare k m = some sq := by
  cases hg : getSquare k m with
  | none => exact absurd ((getSquare_eq_none_iff k m).mp hg) (not_not.mpr h)
  | some sq => exact ⟨sq, rfl⟩

theorem mem_keys_of_getSquare_some {k : ℤ} {sq : SquareState} {m : SquaresMap}
    (h : getSquare k m = some sq) : k ∈ m.map Prod.fst := by
  by_contra hk
  rw [(getSquare_eq_none_iff k m).mpr hk] at h
  cases h

theorem length_le_one_of_nodup_all_eq {α : Type} {l : List α} (c : α)
    (hnd : l.Nodup) (h : ∀ a ∈ l, a = c) : l.length ≤ 1 := by
  match l with
  | [] => simp
  | [a] => simp
  | a :: b :: tl =>
    exfalso
    have ha : a = c := h a (by simp)
    have hb : b = c := h b (by simp)
    rw [List.nodup_cons] at hnd
    exact hnd.1 (by simp [ha, hb])

theorem getSquare_mergeSquares (orig : SquaresMap) {us : SquaresMap}
    (hnd : keysNodup us) (k : ℤ) :
    getSquare k (mergeSquares orig us) =
      match getSquare k us with
      | some v => some v
      | none => getSquare k orig := by
  induction us generalizing orig with
  | nil => simp [mergeSquares, getSquare]
  | cons kv rest ih =>
    have hnd' : keysNodup rest := by
      unfold keysNodup at hnd ⊢
      exact (List.nodup_cons.mp (by simpa using hnd)).2
    have hkv : kv.1 ∉ rest.map Prod.fst := by
      unfold keysNodup at hnd
      exact (List.nodup_cons.mp (by simpa using hnd)).1
    have hstep : mergeSquares orig (kv :: rest) =
        mergeSquares (setSquare kv.1 kv.2 orig) rest := by
      simp [mergeSquares]
    rw [hstep, ih _ hnd']
    by_cases hk : kv.1 = k
    · have h1 : getSquare k rest = none :=
        (getSquare_eq_none_iff k rest).mpr (hk ▸ hkv)
      have h2 : getSquare k (kv :: rest) = some kv.2 := by
        simp [getSquare, hk]
      rw [h1, h2, hk, getSquare_setSquare_self]
    · have h2 : getSquare k (kv :: rest) = getSquare k rest := by
        simp [getSquare, hk]
      rw [h2, getSquare_setSquare_ne _ _ (fun hh => hk hh.symm)]

theorem keysNodup_mergeSquares {orig : SquaresMap} (us : SquaresMap)
    (h : keysNodup orig) : keysNodup (mergeSquares orig us) := by
  induction us generalizing orig with
  | nil => simpa [mergeSquares] using h
  | cons kv rest ih =>
    have hstep : mergeSquares orig (kv :: rest) =
        mergeSquares (setSquare kv.1 kv.2 orig) rest := by
      simp [mergeSquares]
    rw [hstep]
    exact ih (keysNodup_setSquare _ _ h)

theorem moveLoopInv_step {orig : SquaresMap} {ts0 : List Timer} {n0 now : ℕ}
    (hb : ∀ t ∈ ts0, RecordsTimer orig t)
    (he : ∀ k sq, getSquare k orig = some sq →
      ∀ tid, sq.timeoutId = some tid → tid < n0)
    {done : List ℤ} {acc : MoveAcc} {i : ℤ}
    (hI : MoveLoopInv orig ts0 n0 now done acc) (hi : i ∉ done) :
    MoveLoopInv orig ts0 n0 now (done ++ [i]) (processNeighbor now orig acc i) := by
  obtain ⟨h1, h2, h3, h4, h5, h6⟩ := hI
  have c1 : keysNodup (setSquare i ⟨Phase.highlighted, some acc.nextId⟩ acc.updates) :=
    keysNodup_setSquare _ _ h1
  have c2 : ∀ k : ℤ,
      (getSquare k (setSquare i ⟨Phase.highlighted, some acc.nextId⟩ acc.updates)).isSome
        ↔ k ∈ done ++ [i] := by
    intro k
    by_cases hk : k = i
    · subst hk
      rw [getSquare_setSquare_self]
      simp
    · rw [getSquare_setSquare_ne _ _ hk, h2 k]
      simp [hk]
  have c3 : n0 ≤ acc.nextId + 1 := by omega
  have c4 : ∀ t ∈ clearRecorded (getSquare i orig) acc.timers ++
        [⟨acc.nextId, i, now + dwellDuration, TimerKind.dwell⟩],
      (t ∈ ts0 ∧ t.id < n0 ∧ t.index ∉ done ++ [i]) ∨
      (n0 ≤ t.id ∧ t.id < acc.nextId + 1 ∧ t.kind = TimerKind.dwell ∧
        t.fireAt = now + dwellDuration ∧ t.index ∈ done ++ [i] ∧
        getSquare t.index (setSquare i ⟨Phase.highlighted, some acc.nextId⟩ acc.updates)
          = some ⟨Phase.highlighted, some t.id⟩) := by
    intro t ht
    rcases List.mem_append.mp ht with htc | htn
    · have htacc : t ∈ acc.timers := mem_of_mem_clearRecorded htc
      rcases h4 t htacc with ⟨hts0, hlt, hnd⟩ | ⟨hge, hlt, hkind, hfire, hdone, hupd⟩
      · refine Or.inl ⟨hts0, hlt, ?_⟩
        simp only [List.mem_append, List.mem_singleton]
        push_neg
        refine ⟨hnd, ?_⟩
        intro heq
        obtain ⟨sq, hgs, hto⟩ := hb t hts0
        rw [heq] at hgs
        rw [hgs] at htc
        simp only [clearRecorded, hto] at htc
        exact (mem_clearTimeout.mp htc).2 rfl
      · have hne : t.index ≠ i := fun hh => hi (hh ▸ hdone)
        refine Or.inr ⟨hge, by omega, hkind, hfire, ?_, ?_⟩
        · exact List.mem_append.mpr (Or.inl hdone)
        · rw [getSquare_setSquare_ne _ _ hne]
          exact hupd
    · have htt : t = ⟨acc.nextId, i, now + dwellDuration, TimerKind.dwell⟩ := by
        simpa using htn
      subst htt
      refine Or.inr ⟨h3, Nat.lt_succ_self _, rfl, rfl, by simp, ?_⟩
      exact getSquare_setSquare_self _ _ _
  have c5 : ((clearRecorded (getSquare i orig) acc.timers ++
        [(⟨acc.nextId, i, now + dwellDuration, TimerKind.dwell⟩ : Timer)]).map Timer.id).Nodup := by
    rw [List.map_append, List.nodup_append]
    refine ⟨ids_nodup_clearRecorded _ h5, by simp, ?_⟩
    intro a ha hbb
    simp only [List.map_cons, List.map_nil, List.mem_singleton] at hbb
    obtain ⟨t, htmem, hta⟩ := List.mem_map.mp ha
    have htacc : t ∈ acc.timers := mem_of_mem_clearRecorded htmem
    have hid : t.id < acc.nextId := by
      rcases h4 t htacc with ⟨_, hlt, _⟩ | ⟨_, hlt, _⟩
      · omega
      · exact hlt
    omega
  have c6 : ∀ k ∈ done ++ [i], ∃ tid : ℕ,
      getSquare k (setSquare i ⟨Phase.highlighted, some acc.nextId⟩ acc.updates)
        = some ⟨Phase.highlighted, some tid⟩ ∧
      ∃ t ∈ clearRecorded (getSquare i orig) acc.timers ++
          [(⟨acc.nextId, i, now + dwellDuration, TimerKind.dwell⟩ : Timer)],
        t.id = tid ∧ t.index = k ∧ t.kind = TimerKind.dwell ∧
        t.fireAt = now + dwellDuration := by
    intro k hk
    rcases List.mem_append.mp hk with hkdone | hki
    · obtain ⟨tid, hupd, t, htmem, htid, htidx, htkind, htfire⟩ := h6 k hkdone
      have hkne : k ≠ i := fun hh => hi (hh ▸ hkdone)
      refine ⟨tid, ?_, t, ?_, htid, htidx, htkind, htfire⟩
      · rw [getSquare_setSquare_ne _ _ hkne]
        exact hupd
      · refine List.mem_append.mpr (Or.inl ?_)
        cases hgo : getSquare i orig with
        | none => simpa [clearRecorded, hgo] using htmem
        | some sq0 =>
          cases hto : sq0.timeoutId with
          | none => simp only [clearRecorded, hto]; exact htmem
          | some tid0 =>
            simp only [clearRecorded, hto]
            have htid_ge : n0 ≤ t.id := by
              rcases h4 t htmem with ⟨_, _, hnd⟩ | ⟨hge, _⟩
              · exact absurd (htidx ▸ hkdone) hnd
              · exact hge
            have htid0 : tid0 < n0 := he i sq0 hgo tid0 hto
            exact mem_clearTimeout.mpr ⟨htmem, by omega⟩
    · have hk' : k = i := by simpa using hki
      subst hk'
      refine ⟨acc.nextId, getSquare_setSquare_self _ _ _,
        ⟨acc.nextId, k, now + dwellDuration, TimerKind.dwell⟩, ?_, rfl, rfl, rfl, rfl⟩
      exact List.mem_append.mpr (Or.inr (by simp))
  exact ⟨c1, c2, c3, c4, c5, c6⟩

theorem moveLoopInv_nil {orig : SquaresMap} {ts0 : List Timer} {n0 now : ℕ}
    (hb2 : ∀ t ∈ ts0, t.id < n0) (hnd : (ts0.map Timer.id).Nodup) :
    MoveLoopInv orig ts0 n0 now [] ⟨[], ts0, n0⟩ := by
  refine ⟨?_, ?_, le_refl _, ?_, hnd, ?_⟩
  · simp [keysNodup]
  · intro k
    simp [getSquare]
  · intro t ht
    exact Or.inl ⟨ht, hb2 t ht, by simp⟩
  · intro k hk
    simp at hk

theorem moveLoopInv_fold {orig : SquaresMap} {ts0 : List Timer} {n0 now : ℕ}
    (hb : ∀ t ∈ ts0, RecordsTimer orig t)
    (he : ∀ k sq, getSquare k orig = some sq →
      ∀ tid, sq.timeoutId = some tid → tid < n0) :
    ∀ (rest done : List ℤ) (acc : MoveAcc),
      MoveLoopInv orig ts0 n0 now done acc →
      (∀ j ∈ rest, j ∉ done) → rest.Nodup →
      MoveLoopInv orig ts0 n0 now (done ++ rest)
        (rest.foldl (processNeighbor now orig) acc) := by
  intro rest
  induction rest with
  | nil =>
    intro done acc hI _ _
    simpa using hI
  | cons i rest' ih =>
    intro done acc hI hfresh hnd
    have hstep := moveLoopInv_step hb he hI (hfresh i (by simp))
    have hfresh' : ∀ j ∈ rest', j ∉ done ++ [i] := by
      intro j hj
      simp only [List.mem_append, List.mem_singleton]
      push_neg
      refine ⟨hfresh j (by simp [hj]), ?_⟩
      intro hh
      exact (List.nodup_cons.mp hnd).1 (hh ▸ hj)
    have hrec := ih (done ++ [i]) (processNeighbor now orig acc i) hstep hfresh'
      (List.nodup_cons.mp hnd).2
    rw [List.foldl_cons]
    rw [List.append_assoc, List.singleton_append] at hrec
    exact hrec

theorem handleMouseMove_eq_of_last (cfg : GridConfig) (choose : List ℤ → List ℤ)
    (x y : ℚ) (s : AnimState)
    (h : s.lastSquare = some (currentSquare cfg x y)) :
    handleMouseMove cfg choose x y s = s := by
  simp only [handleMouseMove]
  rw [if_pos h]

theorem handleMouseMove_eq_of_ne (cfg : GridConfig) (choose : List ℤ → List ℤ)
    (x y : ℚ) (s : AnimState)
    (h : s.lastSquare ≠ some (currentSquare cfg x y)) :
    handleMouseMove cfg choose x y s =
      { squares := mergeSquares s.squares
          (((choose (getNeighbors cfg x y)).foldl (processNeighbor s.now s.squares)
            ⟨[], s.timers, s.nextTimerId⟩).updates),
        lastSquare := some (currentSquare cfg x y),
        timers := ((choose (getNeighbors cfg x y)).foldl (processNeighbor s.now s.squares)
            ⟨[], s.timers, s.nextTimerId⟩).timers,
        nextTimerId := ((choose (getNeighbors cfg x y)).foldl (processNeighbor s.now s.squares)
            ⟨[], s.timers, s.nextTimerId⟩).nextId,
        now := s.now } := by
  simp only [handleMouseMove]
  rw [if_neg h]

theorem handleMouseMove_char {cfg : GridConfig} {choose : List ℤ → List ℤ}
    {x y : ℚ} {s : AnimState}
    (hs : StateInv s)
    (hnd : (choose (getNeighbors cfg x y)).Nodup)
    (hlast : s.lastSquare ≠ some (currentSquare cfg x y)) :
    StateInv (handleMouseMove cfg choose x y s) ∧
    (handleMouseMove cfg choose x y s).lastSquare = some (currentSquare cfg x y) ∧
    (handleMouseMove cfg choose x y s).now = s.now ∧
    (∀ i ∈ choose (getNeighbors cfg x y), ∃ tid : ℕ,
      getSquare i (handleMouseMove cfg choose x y s).squares =
        some ⟨Phase.highlighted, some tid⟩ ∧
      ∃ t ∈ (handleMouseMove cfg choose x y s).timers, t.id = tid ∧ t.index = i ∧
        t.kind = TimerKind.dwell ∧ t.fireAt = s.now + dwellDuration) ∧
    (∀ t ∈ s.timers, t.index ∈ choose (getNeighbors cfg x y) →
      t ∉ (handleMouseMove cfg choose x y s).timers) := by
  obtain ⟨hk0, hb0, hnd0, he0⟩ := hs
  have hb : ∀ t ∈ s.timers, RecordsTimer s.squares t := fun t ht => (hb0 t ht).1
  have hb2 : ∀ t ∈ s.timers, t.id < s.nextTimerId := fun t ht => (hb0 t ht).2
  have hfold : MoveLoopInv s.squares s.timers s.nextTimerId s.now
      (([] : List ℤ) ++ choose (getNeighbors cfg x y))
      ((choose (getNeighbors cfg x y)).foldl (processNeighbor s.now s.squares)
        ⟨[], s.timers, s.nextTimerId⟩) :=
    moveLoopInv_fold hb he0 (choose (getNeighbors cfg x y)) []
      ⟨[], s.timers, s.nextTimerId⟩ (moveLoopInv_nil hb2 hnd0) (by simp) hnd
  rw [List.nil_append] at hfold
  obtain ⟨m1, m2, m3, m4, m5, m6⟩ := hfold
  have heq := handleMouseMove_eq_of_ne cfg choose x y s hlast
  rw [heq]
  refine ⟨⟨?_, ?_, ?_, ?_⟩, rfl, rfl, ?_, ?_⟩
  · exact keysNodup_mergeSquares _ hk0
  · intro t ht
    have ht' : t ∈ ((choose (getNeighbors cfg x y)).foldl
        (processNeighbor s.now s.squares) ⟨[], s.timers, s.nextTimerId⟩).timers := ht
    rcases m4 t ht' with ⟨hts0, hlt, hnotin⟩ | ⟨hge, hlt, hkind, hfire, hin, hupd⟩
    · have hnone : getSquare t.index (((choose (getNeighbors cfg x y)).foldl
          (processNeighbor s.now s.squares) ⟨[], s.timers, s.nextTimerId⟩).updates)
          = none := by
        cases hgu : getSquare t.index (((choose (getNeighbors cfg x y)).foldl
            (processNeighbor s.now s.squares) ⟨[], s.timers, s.nextTimerId⟩).updates) with
        | none => rfl
        | some v => exact absurd ((m2 t.index).mp (by simp [hgu])) hnotin
      obtain ⟨sq, hgs, hto⟩ := hb t hts0
      constructor
      · refine ⟨sq, ?_, hto⟩
        show getSquare t.index (mergeSquares s.squares _) = some sq
        rw [getSquare_mergeSquares _ m1, hnone]
        exact hgs
      · show t.id < (((choose (getNeighbors cfg x y)).foldl
          (processNeighbor s.now s.squares) ⟨[], s.timers, s.nextTimerId⟩).nextId)
        omega
    · constructor
      · refine ⟨⟨Phase.highlighted, some t.id⟩, ?_, rfl⟩
        show getSquare t.index (mergeSquares s.squares _) = _
        rw [getSquare_mergeSquares _ m1, hupd]
      · exact hlt
  · exact m5
  · intro k sq hky tid hto
    have hky' : getSquare k (mergeSquares s.squares
        (((choose (getNeighbors cfg x y)).foldl (processNeighbor s.now s.squares)
          ⟨[], s.timers, s.nextTimerId⟩).updates)) = some sq := hky
    rw [getSquare_mergeSquares _ m1] at hky'
    cases hgu : getSquare k (((choose (getNeighbors cfg x y)).foldl
        (processNeighbor s.now s.squares) ⟨[], s.timers, s.nextTimerId⟩).updates) with
    | none =>
      rw [hgu] at hky'
      simp only at hky'
      have h1 := he0 k sq hky' tid hto
      show tid < ((choose (getNeighbors cfg x y)).foldl
        (processNeighbor s.now s.squares) ⟨[], s.timers, s.nextTimerId⟩).nextId
      omega
    | some v =>
      rw [hgu] at hky'
      simp only at hky'
      have hsq : v = sq := Option.some_inj.mp hky'
      have hkin : k ∈ choose (getNeighbors cfg x y) := (m2 k).mp (by simp [hgu])
      obtain ⟨tid', hupd, t, htmem, htid, htidx, htkind, htfire⟩ := m6 k hkin
      have hv : v = ⟨Phase.highlighted, some tid'⟩ := by
        rw [hupd] at hgu
        exact (Option.some_inj.mp hgu).symm
      have htid'' : tid = tid' := by
        rw [← hsq, hv] at hto
        simpa using hto.symm
      show tid < ((choose (getNeighbors cfg x y)).foldl
        (processNeighbor s.now s.squares) ⟨[], s.timers, s.nextTimerId⟩).nextId
      rw [htid'', ← htid]
      rcases m4 t htmem with ⟨_, hlt0, _⟩ | ⟨_, hlt0, _⟩
      · omega
      · omega
  · intro i hi
    obtain ⟨tid, hupd, t, htmem, hprops⟩ := m6 i hi
    refine ⟨tid, ?_, t, htmem, hprops⟩
    show getSquare i (mergeSquares s.squares _) = _
    rw [getSquare_mergeSquares _ m1, hupd]
  · intro t ht hidx hmem
    have hmem' : t ∈ ((choose (getNeighbors cfg x y)).foldl
        (processNeighbor s.now s.squares) ⟨[], s.timers, s.nextTimerId⟩).timers := hmem
    rcases m4 t hmem' with ⟨_, _, hno⟩ | ⟨hge, _⟩
    · exact hno hidx
    · exact absurd hge (by have := hb2 t ht; omega)

theorem leaveLoopInv_step {orig : SquaresMap} {ts0 : List Timer} {n0 now : ℕ}
    (hb : ∀ t ∈ ts0, RecordsTimer orig t)
    (he : ∀ k sq, getSquare k orig = some sq →
      ∀ tid, sq.timeoutId = some tid → tid < n0)
    {done : List ℤ} {acc : LeaveAcc} {i : ℤ}
    (hI : LeaveLoopInv orig ts0 n0 now done acc) (hi : i ∉ done) :
    LeaveLoopInv orig ts0 n0 now (done ++ [i]) (processLeaveKey now acc i) := by
  obtain ⟨l1, l2, l3, l4, l5, l6⟩ := hI
  cases hgi : getSquare i acc.squares with
  | none =>
    have hgio : getSquare i orig = none := by rw [← l2 i hi]; exact hgi
    have hstep : processLeaveKey now acc i = acc := by
      simp [processLeaveKey, hgi]
    rw [hstep]
    refine ⟨l1, ?_, l3, ?_, l5, ?_⟩
    · intro k hk
      exact l2 k (fun hh => hk (List.mem_append.mpr (Or.inl hh)))
    · intro t ht
      rcases l4 t ht with ⟨hts0, hlt, hnd⟩ | ⟨hge, hlt, hkind, hfire, hdone, hupd⟩
      · refine Or.inl ⟨hts0, hlt, ?_⟩
        simp only [List.mem_append, List.mem_singleton]
        push_neg
        refine ⟨hnd, ?_⟩
        intro heq
        obtain ⟨sq, hgs, hto⟩ := hb t hts0
        rw [heq, hgio] at hgs
        cases hgs
      · exact Or.inr ⟨hge, hlt, hkind, hfire, List.mem_append.mpr (Or.inl hdone), hupd⟩
    · intro k hk sq0 hgs0
      rcases List.mem_append.mp hk with hkd | hki
      · exact l6 k hkd sq0 hgs0
      · have hki' : k = i := by simpa using hki
        rw [hki', hgio] at hgs0
        cases hgs0
  | some sq =>
    have hgio : getSquare i orig = some sq := by rw [← l2 i hi]; exact hgi
    by_cases hst : sq.state = Phase.highlighted
    · have hstep : processLeaveKey now acc i =
          ⟨setSquare i ⟨Phase.fading, some acc.nextId⟩ acc.squares,
            clearRecorded (some sq) acc.timers ++
              [(⟨acc.nextId, i, now + leaveFadeDuration, TimerKind.removal⟩ : Timer)],
            acc.nextId + 1⟩ := by
        simp [processLeaveKey, hgi, hst]
      rw [hstep]
      refine ⟨?_, ?_, ?_, ?_, ?_, ?_⟩
      · show (setSquare i ⟨Phase.fading, some acc.nextId⟩ acc.squares).map Prod.fst
          = orig.map Prod.fst
        have hkin : i ∈ acc.squares.map Prod.fst := mem_keys_of_getSquare_some hgi
        rw [map_fst_setSquare_mem _ hkin]
        exact l1
      · intro k hk
        have hkd : k ∉ done := fun hh => hk (List.mem_append.mpr (Or.inl hh))
        have hkne : k ≠ i := fun hh => hk (List.mem_append.mpr (Or.inr (by simp [hh])))
        show getSquare k (setSquare i ⟨Phase.fading, some acc.nextId⟩ acc.squares)
          = getSquare k orig
        rw [getSquare_setSquare_ne _ _ hkne]
        exact l2 k hkd
      · show n0 ≤ acc.nextId + 1
        omega
      · intro t ht
        rcases List.mem_append.mp ht with htc | htn
        · have htacc : t ∈ acc.timers := mem_of_mem_clearRecorded htc
          rcases l4 t htacc with ⟨hts0, hlt, hnd⟩ | ⟨hge, hlt, hkind, hfire, hdone, hupd⟩
          · refine Or.inl ⟨hts0, hlt, ?_⟩
            simp only [List.mem_append, List.mem_singleton]
            push_neg
            refine ⟨hnd, ?_⟩
            intro heq
            obtain ⟨sq', hgs, hto⟩ := hb t hts0
            rw [heq, hgio] at hgs
            have hsq' : sq' = sq := Option.some_inj.mp hgs.symm
            rw [hsq'] at hto
            simp only [clearRecorded, hto] at htc
            exact (mem_clearTimeout.mp htc).2 rfl
          · have hne : t.index ≠ i := fun hh => hi (hh ▸ hdone)
            refine Or.inr ⟨hge, ?_, hkind, hfire,
              List.mem_append.mpr (Or.inl hdone), ?_⟩
            · show t.id < acc.nextId + 1
              omega
            · rw [getSquare_setSquare_ne _ _ hne]
              exact hupd
        · have htt : t = ⟨acc.nextId, i, now + leaveFadeDuration, TimerKind.removal⟩ := by
            simpa using htn
          subst htt
          refine Or.inr ⟨l3, Nat.lt_succ_self _, rfl, rfl, by simp, ?_⟩
          exact getSquare_setSquare_self _ _ _
      · rw [List.map_append, List.nodup_append]
        refine ⟨ids_nodup_clearRecorded _ l5, by simp, ?_⟩
        intro a ha hbb
        simp only [List.map_cons, List.map_nil, List.mem_singleton] at hbb
        obtain ⟨t, htmem, hta⟩ := List.mem_map.mp ha
        have htacc : t ∈ acc.timers := mem_of_mem_clearRecorded htmem
        have hid : t.id < acc.nextId := by
          rcases l4 t htacc with ⟨_, hlt, _⟩ | ⟨_, hlt, _⟩
          · omega
          · exact hlt
        omega
      · intro k hk sq0 hgs0
        rcases List.mem_append.mp hk with hkd | hki
        · have hkne : k ≠ i := fun hh => hi (hh ▸ hkd)
          have h6 := l6 k hkd sq0 hgs0
          constructor
          · intro hst0
            obtain ⟨tid, hupdk, t, htmem, htid, htidx, htkind, htfire⟩ := h6.1 hst0
            refine ⟨tid, ?_, t, ?_, htid, htidx, htkind, htfire⟩
            · rw [getSquare_setSquare_ne _ _ hkne]
              exact hupdk
            · refine List.mem_append.mpr (Or.inl ?_)
              have hge : n0 ≤ t.id := by
                rcases l4 t htmem with ⟨_, _, hnd⟩ | ⟨hge, _⟩
                · exact absurd (htidx ▸ hkd) hnd
                · exact hge
              cases hto : sq.timeoutId with
              | none => simpa [clearRecorded, hto] using htmem
              | some tid0 =>
                have htid0 : tid0 < n0 := he i sq hgio tid0 hto
                simp only [clearRecorded, hto]
                exact mem_clearTimeout.mpr ⟨htmem, by omega⟩
          · intro hst0
            obtain ⟨hupdk, hnok⟩ := h6.2 hst0
            refine ⟨?_, ?_⟩
            · rw [getSquare_setSquare_ne _ _ hkne]
              exact hupdk
            · intro t ht
              rcases List.mem_append.mp ht with htc | htn
              · exact hnok t (mem_of_mem_clearRecorded htc)
              · have htt : t = ⟨acc.nextId, i, now + leaveFadeDuration,
                    TimerKind.removal⟩ := by simpa using htn
                rw [htt]
                exact fun hh => hkne hh.symm
        · have hki' : k = i := by simpa using hki
          subst hki'
          have hsq0 : sq0 = sq := by
            rw [hgio] at hgs0
            exact (Option.some_inj.mp hgs0).symm
          constructor
          · intro _
            refine ⟨acc.nextId, getSquare_setSquare_self _ _ _,
              ⟨acc.nextId, k, now + leaveFadeDuration, TimerKind.removal⟩,
              List.mem_append.mpr (Or.inr (by simp)), rfl, rfl, rfl, rfl⟩
          · intro hst0
            rw [hsq0, hst] at hst0
            cases hst0
    · have hstf : sq.state = Phase.fading := by
        cases hsv : sq.state with
        | highlighted => exact absurd hsv hst
        | fading => rfl
      have hstep : processLeaveKey now acc i =
          { acc with timers := clearRecorded (some sq) acc.timers } := by
        simp [processLeaveKey, hgi, hst]
      rw [hstep]
      refine ⟨l1, ?_, l3, ?_, ?_, ?_⟩
      · intro k hk
        exact l2 k (fun hh => hk (List.mem_append.mpr (Or.inl hh)))
      · intro t ht
        have ht2 : t ∈ clearRecorded (some sq) acc.timers := ht
        have htacc : t ∈ acc.timers := mem_of_mem_clearRecorded ht2
        rcases l4 t htacc with ⟨hts0, hlt, hnd⟩ | ⟨hge, hlt, hkind, hfire, hdone, hupd⟩
        · refine Or.inl ⟨hts0, hlt, ?_⟩
          simp only [List.mem_append, List.mem_singleton]
          push_neg
          refine ⟨hnd, ?_⟩
          intro heq
          obtain ⟨sq', hgs, hto⟩ := hb t hts0
          rw [heq, hgio] at hgs
          have hsq' : sq' = sq := Option.some_inj.mp hgs.symm
          rw [hsq'] at hto
          simp only [clearRecorded, hto] at ht2
          exact (mem_clearTimeout.mp ht2).2 rfl
        · exact Or.inr ⟨hge, hlt, hkind, hfire,
            List.mem_append.mpr (Or.inl hdone), hupd⟩
      · show ((clearRecorded (some sq) acc.timers).map Timer.id).Nodup
        exact ids_nodup_clearRecorded _ l5
      · intro k hk sq0 hgs0
        rcases List.mem_append.mp hk with hkd | hki
        · have h6 := l6 k hkd sq0 hgs0
          constructor
          · intro hst0
            obtain ⟨tid, hupdk, t, htmem, htid, htidx, htkind, htfire⟩ := h6.1 hst0
            refine ⟨tid, hupdk, t, ?_, htid, htidx, htkind, htfire⟩
            have hge : n0 ≤ t.id := by
              rcases l4 t htmem with ⟨_, _, hnd⟩ | ⟨hge, _⟩
              · exact absurd (htidx ▸ hkd) hnd
              · exact hge
            cases hto : sq.timeoutId with
            | none => simpa [clearRecorded, hto] using htmem
            | some tid0 =>
              have htid0 : tid0 < n0 := he i sq hgio tid0 hto
              simp only [clearRecorded, hto]
              exact mem_clearTimeout.mpr ⟨htmem, by omega⟩
          · intro hst0
            obtain ⟨hupdk, hnok⟩ := h6.2 hst0
            refine ⟨hupdk, ?_⟩
            intro t ht
            have ht2 : t ∈ clearRecorded (some sq) acc.timers := ht
            exact hnok t (mem_of_mem_clearRecorded ht2)
        · have hki' : k = i := by simpa using hki
          subst hki'
          have hsq0 : sq0 = sq := by
            rw [hgio] at hgs0
            exact (Option.some_inj.mp hgs0).symm
          constructor
          · intro hst0
            rw [hsq0, hstf] at hst0
            cases hst0
          · intro _
            refine ⟨?_, ?_⟩
            · show getSquare k acc.squares = some sq0
              rw [hsq0]
              exact hgi
            · intro t ht heq
              have ht2 : t ∈ clearRecorded (some sq) acc.timers := ht
              have htacc : t ∈ acc.timers := mem_of_mem_clearRecorded ht2
              rcases l4 t htacc with ⟨hts0, hlt, hnd⟩ | ⟨_, _, _, _, hdone, _⟩
              · obtain ⟨sq', hgs, hto⟩ := hb t hts0
                rw [heq, hgio] at hgs
                have hsq' : sq' = sq := Option.some_inj.mp hgs.symm
                rw [hsq'] at hto
                simp only [clearRecorded, hto] at ht2
                exact (mem_clearTimeout.mp ht2).2 rfl
              · exact hi (heq ▸ hdone)

theorem leaveLoopInv_nil {orig : SquaresMap} {ts0 : List Timer} {n0 now : ℕ}
    (hb2 : ∀ t ∈ ts0, t.id < n0) (hnd : (ts0.map Timer.id).Nodup) :
    LeaveLoopInv orig ts0 n0 now [] ⟨orig, ts0, n0⟩ := by
  refine ⟨rfl, fun k _ => rfl, le_refl _, ?_, hnd, ?_⟩
  · intro t ht
    exact Or.inl ⟨ht, hb2 t ht, by simp⟩
  · intro k hk
    simp at hk

theorem leaveLoopInv_fold {orig : SquaresMap} {ts0 : List Timer} {n0 now : ℕ}
    (hb : ∀ t ∈ ts0, RecordsTimer orig t)
    (he : ∀ k sq, getSquare k orig = some sq →
      ∀ tid, sq.timeoutId = some tid → tid < n0) :
    ∀ (rest done : List ℤ) (acc : LeaveAcc),
      LeaveLoopInv orig ts0 n0 now done acc →
      (∀ j ∈ rest, j ∉ done) → rest.Nodup →
      LeaveLoopInv orig ts0 n0 now (done ++ rest)
        (rest.foldl (processLeaveKey now) acc) := by
  intro rest
  induction rest with
  | nil =>
    intro done acc hI _ _
    simpa using hI
  | cons i rest' ih =>
    intro done acc hI hfresh hnd
    have hstep := leaveLoopInv_step hb he hI (hfresh i (by simp))
    have hfresh' : ∀ j ∈ rest', j ∉ done ++ [i] := by
      intro j hj
      simp only [List.mem_append, List.mem_singleton]
      push_neg
      refine ⟨hfresh j (by simp [hj]), ?_⟩
      intro hh
      exact (List.nodup_cons.mp hnd).1 (hh ▸ hj)
    have hrec := ih (done ++ [i]) (processLeaveKey now acc i) hstep hfresh'
      (List.nodup_cons.mp hnd).2
    rw [List.foldl_cons]
    rw [List.append_assoc, List.singleton_append] at hrec
    exact hrec

theorem handleMouseLeave_char {s : AnimState} (hs : StateInv s) :
    StateInv (handleMouseLeave s) ∧
    (handleMouseLeave s).lastSquare = none ∧
    (handleMouseLeave s).now = s.now ∧
    (∀ i sq, getSquare i s.squares = some sq → sq.state = Phase.highlighted →
      ∃ tid : ℕ, getSquare i (handleMouseLeave s).squares =
          some ⟨Phase.fading, some tid⟩ ∧
        ∃ t ∈ (handleMouseLeave s).timers, t.id = tid ∧ t.index = i ∧
          t.kind = TimerKind.removal ∧ t.fireAt = s.now + leaveFadeDuration) ∧
    (∀ i sq, getSquare i s.squares = some sq → sq.state = Phase.fading →
      getSquare i (handleMouseLeave s).squares = some sq ∧
      ∀ t ∈ (handleMouseLeave s).timers, t.index ≠ i) ∧
    (∀ i, getSquare i s.squares = none →
      getSquare i (handleMouseLeave s).squares = none) ∧
    (∀ t ∈ (handleMouseLeave s).timers, s.nextTimerId ≤ t.id) := by
  obtain ⟨hk0, hb0, hnd0, he0⟩ := hs
  have hb : ∀ t ∈ s.timers, RecordsTimer s.squares t := fun t ht => (hb0 t ht).1
  have hb2 : ∀ t ∈ s.timers, t.id < s.nextTimerId := fun t ht => (hb0 t ht).2
  have hkeysnd : (s.squares.map Prod.fst).Nodup := hk0
  have hfold : LeaveLoopInv s.squares s.timers s.nextTimerId s.now
      (([] : List ℤ) ++ s.squares.map Prod.fst)
      ((s.squares.map Prod.fst).foldl (processLeaveKey s.now)
        ⟨s.squares, s.timers, s.nextTimerId⟩) :=
    leaveLoopInv_fold hb he0 (s.squares.map Prod.fst) []
      ⟨s.squares, s.timers, s.nextTimerId⟩ (leaveLoopInv_nil hb2 hnd0)
      (by simp) hkeysnd
  rw [List.nil_append] at hfold
  obtain ⟨l1, l2, l3, l4, l5, l6⟩ := hfold
  have hall : ∀ t ∈ ((s.squares.map Prod.fst).foldl (processLeaveKey s.now)
      ⟨s.squares, s.timers, s.nextTimerId⟩).timers,
      s.nextTimerId ≤ t.id ∧
      t.id < ((s.squares.map Prod.fst).foldl (processLeaveKey s.now)
        ⟨s.squares, s.timers, s.nextTimerId⟩).nextId ∧
      t.kind = TimerKind.removal ∧ t.fireAt = s.now + leaveFadeDuration ∧
      t.index ∈ s.squares.map Prod.fst ∧
      getSquare t.index (((s.squares.map Prod.fst).foldl (processLeaveKey s.now)
        ⟨s.squares, s.timers, s.nextTimerId⟩).squares)
        = some ⟨Phase.fading, some t.id⟩ := by
    intro t ht
    rcases l4 t ht with ⟨hts0, _, hnd⟩ | hrt
    · obtain ⟨sq, hgs, _⟩ := hb t hts0
      exact absurd (mem_keys_of_getSquare_some hgs) hnd
    · exact hrt
  refine ⟨⟨?_, ?_, ?_, ?_⟩, rfl, rfl, ?_, ?_, ?_, ?_⟩
  · show keysNodup (((s.squares.map Prod.fst).foldl (processLeaveKey s.now)
      ⟨s.squares, s.timers, s.nextTimerId⟩).squares)
    unfold keysNodup
    rw [l1]
    exact hk0
  · intro t ht
    obtain ⟨hge, hlt, hkind, hfire, hkin, hupd⟩ := hall t ht
    exact ⟨⟨⟨Phase.fading, some t.id⟩, hupd, rfl⟩, hlt⟩
  · exact l5
  · intro k sq hks tid hto
    by_cases hkin : k ∈ s.squares.map Prod.fst
    · obtain ⟨sq0, hgs0⟩ := getSquare_isSome_of_mem_keys hkin
      have h6 := l6 k hkin sq0 hgs0
      cases hsv : sq0.state with
      | highlighted =>
        obtain ⟨tid', hupd, t, htmem, htid, _, _, _⟩ := h6.1 hsv
        have hks' : getSquare k (((s.squares.map Prod.fst).foldl
            (processLeaveKey s.now) ⟨s.squares, s.timers, s.nextTimerId⟩).squares)
            = some sq := hks
        rw [hupd] at hks'
        have hsq : sq = ⟨Phase.fading, some tid'⟩ := (Option.some_inj.mp hks').symm
        rw [hsq] at hto
        simp only at hto
        have htid2 : tid = tid' := (Option.some_inj.mp hto).symm
        have hlt := (hall t htmem).2.1
        show tid < ((s.squares.map Prod.fst).foldl (processLeaveKey s.now)
          ⟨s.squares, s.timers, s.nextTimerId⟩).nextId
        rw [htid2, ← htid]
        exact hlt
      | fading =>
        obtain ⟨hupd, _⟩ := h6.2 hsv
        have hks' : getSquare k (((s.squares.map Prod.fst).foldl
            (processLeaveKey s.now) ⟨s.squares, s.timers, s.nextTimerId⟩).squares)
            = some sq := hks
        rw [hupd] at hks'
        have hsq : sq = sq0 := (Option.some_inj.mp hks').symm
        rw [hsq] at hto
        have := he0 k sq0 hgs0 tid hto
        show tid < ((s.squares.map Prod.fst).foldl (processLeaveKey s.now)
          ⟨s.squares, s.timers, s.nextTimerId⟩).nextId
        omega
    · have hnone : getSquare k (((s.squares.map Prod.fst).foldl
          (processLeaveKey s.now) ⟨s.squares, s.timers, s.nextTimerId⟩).squares)
          = none := by
        rw [getSquare_eq_none_iff, l1]
        exact hkin
      have hks' : getSquare k (((s.squares.map Prod.fst).foldl
          (processLeaveKey s.now) ⟨s.squares, s.timers, s.nextTimerId⟩).squares)
          = some sq := hks
      rw [hnone] at hks'
      cases hks'
  · intro i sq hgs hst
    have hkin := mem_keys_of_getSquare_some hgs
    exact (l6 i hkin sq hgs).1 hst
  · intro i sq hgs hst
    have hkin := mem_keys_of_getSquare_some hgs
    exact (l6 i hkin sq hgs).2 hst
  · intro i hnone
    show getSquare i (((s.squares.map Prod.fst).foldl
      (processLeaveKey s.now) ⟨s.squares, s.timers, s.nextTimerId⟩).squares) = none
    rw [getSquare_eq_none_iff, l1]
    exact (getSquare_eq_none_iff i s.squares).mp hnone
  · intro t ht
    exact (hall t ht).1

theorem fireTimer_dwell_eq {tid : ℕ} {s : AnimState} {t : Timer}
    (hf : findTimer tid s.timers = some t) (hk : t.kind = TimerKind.dwell) :
    fireTimer tid s = runDwell t.index
      { squares := s.squares, lastSquare := s.lastSquare,
        timers := clearTimeout tid s.timers, nextTimerId := s.nextTimerId,
        now := t.fireAt } := by
  obtain ⟨tidv, idxv, fav, kv⟩ := t
  have hk2 : kv = TimerKind.dwell := hk
  subst hk2
  rw [fireTimer, hf]

theorem fireTimer_removal_eq {tid : ℕ} {s : AnimState} {t : Timer}
    (hf : findTimer tid s.timers = some t) (hk : t.kind = TimerKind.removal) :
    fireTimer tid s = runRemoval t.index
      { squares := s.squares, lastSquare := s.lastSquare,
        timers := clearTimeout tid s.timers, nextTimerId := s.nextTimerId,
        now := t.fireAt } := by
  obtain ⟨tidv, idxv, fav, kv⟩ := t
  have hk2 : kv = TimerKind.removal := hk
  subst hk2
  rw [fireTimer, hf]

theorem runDwell_inv (i : ℤ) {s : AnimState} (hs : StateInv s)
    (hni : ∀ u ∈ s.timers, u.index ≠ i) : StateInv (runDwell i s) := by
  obtain ⟨hk0, hb0, hnd0, he0⟩ := hs
  cases hgs : getSquare i s.squares with
  | none =>
    rw [runDwell, hgs]
    exact ⟨hk0, hb0, hnd0, he0⟩
  | some sq =>
    by_cases hst : sq.state = Phase.highlighted
    · simp only [runDwell, hgs]
      rw [if_pos hst]
      refine ⟨?_, ?_, ?_, ?_⟩
      · exact keysNodup_setSquare _ _ hk0
      · intro t ht
        have ht' : t ∈ s.timers ++
            [(⟨s.nextTimerId, i, s.now + fadeRemovalDuration, TimerKind.removal⟩ : Timer)]
            := ht
        rcases List.mem_append.mp ht' with hto | htn
        · obtain ⟨⟨squ, hgsu, htou⟩, hlt⟩ := hb0 t hto
          refine ⟨⟨squ, ?_, htou⟩, ?_⟩
          · show getSquare t.index (setSquare i ⟨Phase.fading, some s.nextTimerId⟩
              s.squares) = some squ
            rw [getSquare_setSquare_ne _ _ (hni t hto)]
            exact hgsu
          · show t.id < s.nextTimerId + 1
            omega
        · have htt : t = ⟨s.nextTimerId, i, s.now + fadeRemovalDuration,
              TimerKind.removal⟩ := by simpa using htn
          subst htt
          refine ⟨⟨⟨Phase.fading, some s.nextTimerId⟩, ?_, rfl⟩, ?_⟩
          · exact getSquare_setSquare_self _ _ _
          · exact Nat.lt_succ_self _
      · show ((s.timers ++ [(⟨s.nextTimerId, i, s.now + fadeRemovalDuration,
            TimerKind.removal⟩ : Timer)]).map Timer.id).Nodup
        rw [List.map_append, List.nodup_append]
        refine ⟨hnd0, by simp, ?_⟩
        intro a ha hbb
        simp only [List.map_cons, List.map_nil, List.mem_singleton] at hbb
        obtain ⟨t, htmem, hta⟩ := List.mem_map.mp ha
        have := (hb0 t htmem).2
        omega
      · intro k sq' hks tid hto
        by_cases hk : k = i
        · subst hk
          have hks' : getSquare k (setSquare k ⟨Phase.fading, some s.nextTimerId⟩
              s.squares) = some sq' := hks
          rw [getSquare_setSquare_self] at hks'
          have hsq' : sq' = ⟨Phase.fading, some s.nextTimerId⟩ :=
            (Option.some_inj.mp hks').symm
          rw [hsq'] at hto
          simp only at hto
          have : tid = s.nextTimerId := (Option.some_inj.mp hto).symm
          show tid < s.nextTimerId + 1
          omega
        · have hks' : getSquare k (setSquare i ⟨Phase.fading, some s.nextTimerId⟩
              s.squares) = some sq' := hks
          rw [getSquare_setSquare_ne _ _ hk] at hks'
          have := he0 k sq' hks' tid hto
          show tid < s.nextTimerId + 1
          omega
    · simp only [runDwell, hgs]
      rw [if_neg hst]
      exact ⟨hk0, hb0, hnd0, he0⟩

theorem runRemoval_inv (i : ℤ) {s : AnimState} (hs : StateInv s)
    (hni : ∀ u ∈ s.timers, u.index ≠ i) : StateInv (runRemoval i s) := by
  obtain ⟨hk0, hb0, hnd0, he0⟩ := hs
  cases hgs : getSquare i s.squares with
  | none =>
    rw [runRemoval, hgs]
    exact ⟨hk0, hb0, hnd0, he0⟩
  | some sq =>
    by_cases hst : sq.state = Phase.fading
    · simp only [runRemoval, hgs]
      rw [if_pos hst]
      refine ⟨?_, ?_, hnd0, ?_⟩
      · exact keysNodup_eraseSquare _ hk0
      · intro t ht
        obtain ⟨⟨squ, hgsu, htou⟩, hlt⟩ := hb0 t ht
        refine ⟨⟨squ, ?_, htou⟩, hlt⟩
        show getSquare t.index (eraseSquare i s.squares) = some squ
        rw [getSquare_eraseSquare_ne _ (hni t ht)]
        exact hgsu
      · intro k sq' hks tid hto
        by_cases hk : k = i
        · subst hk
          have hks' : getSquare k (eraseSquare k s.squares) = some sq' := hks
          rw [getSquare_eraseSquare_self] at hks'
          cases hks'
        · have hks' : getSquare k (eraseSquare i s.squares) = some sq' := hks
          rw [getSquare_eraseSquare_ne _ hk] at hks'
          exact he0 k sq' hks' tid hto
    · simp only [runRemoval, hgs]
      rw [if_neg hst]
      exact ⟨hk0, hb0, hnd0, he0⟩

theorem clearTimeout_no_index {s : AnimState} (hs : StateInv s) {t : Timer}
    (htmem : t ∈ s.timers) :
    ∀ u ∈ clearTimeout t.id s.timers, u.index ≠ t.index := by
  intro u hu heq
  obtain ⟨hu', hune⟩ := mem_clearTimeout.mp hu
  obtain ⟨squ, hgsu, htou⟩ := (hs.2.1 u hu').1
  obtain ⟨sqt, hgst, htot⟩ := (hs.2.1 t htmem).1
  rw [heq] at hgsu
  have h2 : squ = sqt := Option.some_inj.mp (hgsu.symm.trans hgst)
  rw [h2] at htou
  have h3 : u.id = t.id := Option.some_inj.mp (htou.symm.trans htot)
  exact hune h3

theorem fireTimer_inv (tid : ℕ) {s : AnimState} (hs : StateInv s) :
    StateInv (fireTimer tid s) := by
  cases hf : findTimer tid s.timers with
  | none =>
    rw [fireTimer, hf]
    exact hs
  | some t =>
    obtain ⟨htmem, htid⟩ := findTimer_some hf
    have hs1 : StateInv
        { squares := s.squares, lastSquare := s.lastSquare,
          timers := clearTimeout tid s.timers, nextTimerId := s.nextTimerId,
          now := t.fireAt } := by
      obtain ⟨hk0, hb0, hnd0, he0⟩ := hs
      refine ⟨hk0, ?_, ids_nodup_clearTimeout _ hnd0, he0⟩
      intro u hu
      exact hb0 u (mem_clearTimeout.mp hu).1
    have hni : ∀ u ∈ clearTimeout tid s.timers, u.index ≠ t.index := by
      rw [← htid]
      exact clearTimeout_no_index hs htmem
    cases htk : t.kind with
    | dwell =>
      rw [fireTimer_dwell_eq hf htk]
      exact runDwell_inv _ hs1 hni
    | removal =>
      rw [fireTimer_removal_eq hf htk]
      exact runRemoval_inv _ hs1 hni

theorem wait_inv {s : AnimState} (d : ℕ) (hs : StateInv s) :
    StateInv { s with now := s.now + d } := hs

theorem reachable_inv {cfg : GridConfig} {s : AnimState}
    (h : Reachable cfg s) : StateInv s := by
  induction h with
  | init =>
    refine ⟨?_, ?_, ?_, ?_⟩
    · simp [initState, keysNodup]
    · intro t ht
      simp [initState] at ht
    · simp [initState]
    · intro k sq hk
      simp only [initState] at hk
      cases hk
  | move choose x y s hr hnd hsub ih =>
    by_cases hlast : s.lastSquare = some (currentSquare cfg x y)
    · rw [handleMouseMove_eq_of_last _ _ _ _ _ hlast]
      exact ih
    · exact (handleMouseMove_char ih hnd hlast).1
  | leave s hr ih =>
    exact (handleMouseLeave_char ih).1
  | fire tid s hr ih =>
    exact fireTimer_inv tid ih
  | wait d s hr ih =>
    exact wait_inv d ih

theorem runDwell_highlighted_eq {i : ℤ} {s : AnimState} {tid0 : ℕ}
    (h : getSquare i s.squares = some ⟨Phase.highlighted, some tid0⟩) :
    runDwell i s =
      { squares := setSquare i ⟨Phase.fading, some s.nextTimerId⟩ s.squares,
        lastSquare := s.lastSquare,
        timers := s.timers ++ [⟨s.nextTimerId, i, s.now + fadeRemovalDuration,
          TimerKind.removal⟩],
        nextTimerId := s.nextTimerId + 1,
        now := s.now } := by
  simp [runDwell, h]

theorem runRemoval_fading_eq {i : ℤ} {s : AnimState} {tid0 : Option ℕ}
    (h : getSquare i s.squares = some ⟨Phase.fading, tid0⟩) :
    runRemoval i s = { s with squares := eraseSquare i s.squares } := by
  simp [runRemoval, h]

/-- C3: in every reachable state each cell has at most one pending timer,
and when the mouse-move handler selects a cell with a pending timer it
cancels that timer: no timer pending before the move for a selected cell is
still pending afterwards. -/
theorem c3_at_most_one_pending_timer_per_cell (cfg : GridConfig) (s : AnimState)
    (hr : Reachable cfg s) :
    (∀ i : ℤ, (s.timers.filter fun t => t.index == i).length ≤ 1) ∧
    (∀ (choose : List ℤ → List ℤ) (x y : ℚ),
      (choose (getNeighbors cfg x y)).Nodup →
      s.lastSquare ≠ some (currentSquare cfg x y) →
      ∀ i ∈ choose (getNeighbors cfg x y), ∀ t ∈ s.timers, t.index = i →
        t ∉ (handleMouseMove cfg choose x y s).timers) := by
  have hs := reachable_inv hr
  constructor
  · intro i
    cases hgs : getSquare i s.squares with
    | none =>
      have hempty : s.timers.filter (fun t => t.index == i) = [] := by
        rw [List.eq_nil_iff_forall_not_mem]
        intro t ht
        obtain ⟨htm, hti⟩ := List.mem_filter.mp ht
        have hti' : t.index = i := by simpa using hti
        obtain ⟨sq, hgsq, _⟩ := (hs.2.1 t htm).1
        rw [hti', hgs] at hgsq
        cases hgsq
      rw [hempty]
      simp
    | some sq =>
      cases hto : sq.timeoutId with
      | none =>
        have hempty : s.timers.filter (fun t => t.index == i) = [] := by
          rw [List.eq_nil_iff_forall_not_mem]
          intro t ht
          obtain ⟨htm, hti⟩ := List.mem_filter.mp ht
          have hti' : t.index = i := by simpa using hti
          obtain ⟨sq', hgsq, htou⟩ := (hs.2.1 t htm).1
          rw [hti', hgs] at hgsq
          rw [← Option.some_inj.mp hgsq] at htou
          rw [hto] at htou
          cases htou
        rw [hempty]
        simp
      | some tid0 =>
        have hndf : ((s.timers.filter fun t => t.index == i).map Timer.id).Nodup :=
          hs.2.2.1.sublist ((List.filter_sublist _).map Timer.id)
        have hlen : (s.timers.filter fun t => t.index == i).length =
            ((s.timers.filter fun t => t.index == i).map Timer.id).length :=
          (List.length_map _ _).symm
        rw [hlen]
        apply length_le_one_of_nodup_all_eq tid0 hndf
        intro a ha
        obtain ⟨t, htmem, hta⟩ := List.mem_map.mp ha
        obtain ⟨htm, hti⟩ := List.mem_filter.mp htmem
        have hti' : t.index = i := by simpa using hti
        obtain ⟨sq', hgsq, htou⟩ := (hs.2.1 t htm).1
        rw [hti', hgs] at hgsq
        rw [← Option.some_inj.mp hgsq] at htou
        rw [hto] at htou
        rw [← hta]
        exact (Option.some_inj.mp htou).symm
  · intro choose x y hnd hlast i hi t ht hti
    exact (handleMouseMove_char hs hnd hlast).2.2.2.2 t ht (hti ▸ hi)

/-- Witness for C3 at the reachable demo state with one pending timer. -/
theorem c3_at_most_one_pending_timer_per_cell_witness :
    Reachable cfgDemo sDwellDemo ∧
    ((∀ i : ℤ, (sDwellDemo.timers.filter fun t => t.index == i).length ≤ 1) ∧
    (∀ (choose : List ℤ → List ℤ) (x y : ℚ),
      (choose (getNeighbors cfgDemo x y)).Nodup →
      sDwellDemo.lastSquare ≠ some (currentSquare cfgDemo x y) →
      ∀ i ∈ choose (getNeighbors cfgDemo x y), ∀ t ∈ sDwellDemo.timers, t.index = i →
        t ∉ (handleMouseMove cfgDemo choose x y sDwellDemo).timers)) :=
  ⟨reach_sDwellDemo,
    c3_at_most_one_pending_timer_per_cell cfgDemo sDwellDemo reach_sDwellDemo⟩

/-- C4: a cell selected by a mouse move becomes highlighted with a dwell
timer set to fire exactly dwellDuration (400) later; when that timer fires
with no further trigger the cell becomes fading and a removal timer is set
to fire fadeRemovalDuration (500) after that; when the removal timer fires
the cell's entry is removed from the mapping. -/
theorem c4_highlight_dwell_fade_removal_lifecycle (cfg : GridConfig)
    (choose : List ℤ → List ℤ) (x y : ℚ) (s : AnimState)
    (hr : Reachable cfg s)
    (hnd : (choose (getNeighbors cfg x y)).Nodup)
    (hlast : s.lastSquare ≠ some (currentSquare cfg x y))
    (i : ℤ) (hi : i ∈ choose (getNeighbors cfg x y)) :
    ∃ tid tid2 : ℕ,
      getSquare i (handleMouseMove cfg choose x y s).squares =
        some ⟨Phase.highlighted, some tid⟩ ∧
      (∃ t ∈ (handleMouseMove cfg choose x y s).timers,
        t.id = tid ∧ t.index = i ∧ t.kind = TimerKind.dwell ∧
        t.fireAt = s.now + dwellDuration) ∧
      getSquare i (fireTimer tid (handleMouseMove cfg choose x y s)).squares =
        some ⟨Phase.fading, some tid2⟩ ∧
      (fireTimer tid (handleMouseMove cfg choose x y s)).now =
        s.now + dwellDuration ∧
      (∃ t2 ∈ (fireTimer tid (handleMouseMove cfg choose x y s)).timers,
        t2.id = tid2 ∧ t2.index = i ∧ t2.kind = TimerKind.removal ∧
        t2.fireAt = s.now + dwellDuration + fadeRemovalDuration) ∧
      getSquare i (fireTimer tid2
        (fireTimer tid (handleMouseMove cfg choose x y s))).squares = none ∧
      (fireTimer tid2 (fireTimer tid (handleMouseMove cfg choose x y s))).now =
        s.now + dwellDuration + fadeRemovalDuration := by
  have hs := reachable_inv hr
  set s' := handleMouseMove cfg choose x y s with hs'def
  have hchar := handleMouseMove_char hs hnd hlast
  rw [← hs'def] at hchar
  obtain ⟨hinv', _, _, hpos, _⟩ := hchar
  obtain ⟨tid, hupd, t, htmem, htid, htidx, htkind, htfire⟩ := hpos i hi
  have hfind : findTimer tid s'.timers = some t := by
    rw [← htid]
    exact findTimer_eq_some_of_mem hinv'.2.2.1 htmem
  have hfire1 : fireTimer tid s' =
      { squares := setSquare i ⟨Phase.fading, some s'.nextTimerId⟩ s'.squares,
        lastSquare := s'.lastSquare,
        timers := clearTimeout tid s'.timers ++
          [⟨s'.nextTimerId, i, t.fireAt + fadeRemovalDuration, TimerKind.removal⟩],
        nextTimerId := s'.nextTimerId + 1,
        now := t.fireAt } := by
    rw [fireTimer_dwell_eq hfind htkind, htidx]
    exact runDwell_highlighted_eq hupd
  have hA : getSquare i (fireTimer tid s').squares =
      some ⟨Phase.fading, some s'.nextTimerId⟩ := by
    rw [hfire1]
    exact getSquare_setSquare_self _ _ _
  have hB : (fireTimer tid s').now = s.now + dwellDuration := by
    rw [hfire1]
    exact htfire
  have hC : (⟨s'.nextTimerId, i, t.fireAt + fadeRemovalDuration,
      TimerKind.removal⟩ : Timer) ∈ (fireTimer tid s').timers := by
    rw [hfire1]
    exact List.mem_append.mpr (Or.inr (by simp))
  have hinv2 : StateInv (fireTimer tid s') := fireTimer_inv tid hinv'
  have hfind2 : findTimer s'.nextTimerId (fireTimer tid s').timers =
      some ⟨s'.nextTimerId, i, t.fireAt + fadeRemovalDuration, TimerKind.removal⟩ :=
    findTimer_eq_some_of_mem hinv2.2.2.1 hC
  have hfire2 : fireTimer s'.nextTimerId (fireTimer tid s') =
      { squares := eraseSquare i (fireTimer tid s').squares,
        lastSquare := (fireTimer tid s').lastSquare,
        timers := clearTimeout s'.nextTimerId (fireTimer tid s').timers,
        nextTimerId := (fireTimer tid s').nextTimerId,
        now := t.fireAt + fadeRemovalDuration } := by
    rw [fireTimer_removal_eq hfind2 rfl]
    exact runRemoval_fading_eq hA
  have hF : getSquare i (fireTimer s'.nextTimerId (fireTimer tid s')).squares
      = none := by
    rw [hfire2]
    exact getSquare_eraseSquare_self _ _
  have hG : (fireTimer s'.nextTimerId (fireTimer tid s')).now =
      s.now + dwellDuration + fadeRemovalDuration := by
    rw [hfire2]
    show t.fireAt + fadeRemovalDuration = s.now + dwellDuration + fadeRemovalDuration
    rw [htfire]
  refine ⟨tid, s'.nextTimerId, hupd, ⟨t, htmem, htid, htidx, htkind, htfire⟩,
    hA, hB, ⟨⟨s'.nextTimerId, i, t.fireAt + fadeRemovalDuration,
      TimerKind.removal⟩, hC, rfl, rfl, rfl, ?_⟩, hF, hG⟩
  show t.fireAt + fadeRemovalDuration = s.now + dwellDuration + fadeRemovalDuration
  rw [htfire]

/-- Witness for C4: the full lifecycle run on the demo grid from the initial
state, with cell 1 selected. -/
theorem c4_highlight_dwell_fade_removal_lifecycle_witness :
    (((fun l : List ℤ => l) (getNeighbors cfgDemo 5 5)).Nodup ∧
      initState.lastSquare ≠ some (currentSquare cfgDemo 5 5) ∧
      1 ∈ (fun l : List ℤ => l) (getNeighbors cfgDemo 5 5)) ∧
    (∃ tid tid2 : ℕ,
      getSquare 1 (handleMouseMove cfgDemo (fun l => l) 5 5 initState).squares =
        some ⟨Phase.highlighted, some tid⟩ ∧
      (∃ t ∈ (handleMouseMove cfgDemo (fun l => l) 5 5 initState).timers,
        t.id = tid ∧ t.index = 1 ∧ t.kind = TimerKind.dwell ∧
        t.fireAt = initState.now + dwellDuration) ∧
      getSquare 1 (fireTimer tid
        (handleMouseMove cfgDemo (fun l => l) 5 5 initState)).squares =
        some ⟨Phase.fading, some tid2⟩ ∧
      (fireTimer tid (handleMouseMove cfgDemo (fun l => l) 5 5 initState)).now =
        initState.now + dwellDuration ∧
      (∃ t2 ∈ (fireTimer tid
          (handleMouseMove cfgDemo (fun l => l) 5 5 initState)).timers,
        t2.id = tid2 ∧ t2.index = 1 ∧ t2.kind = TimerKind.removal ∧
        t2.fireAt = initState.now + dwellDuration + fadeRemovalDuration) ∧
      getSquare 1 (fireTimer tid2 (fireTimer tid
        (handleMouseMove cfgDemo (fun l => l) 5 5 initState))).squares = none ∧
      (fireTimer tid2 (fireTimer tid
        (handleMouseMove cfgDemo (fun l => l) 5 5 initState))).now =
        initState.now + dwellDuration + fadeRemovalDuration) :=
  ⟨⟨by simp [getNeighbors_demo], by simp [initState], by simp [getNeighbors_demo]⟩,
    c4_highlight_dwell_fade_removal_lifecycle cfgDemo (fun l => l) 5 5 initState
      Reachable.init (by simp [getNeighbors_demo]) (by simp [initState])
      1 (by simp [getNeighbors_demo])⟩

/-- C5: a pointer-leave event clears the last-hovered reference, turns every
highlighted cell fading (scheduling its removal timer) while its canceled
highlight timer's handle is no longer pending, and leaves absent (idle)
cells absent. -/
theorem c5_leave_fades_highlighted_clears_ref (cfg : GridConfig) (s : AnimState)
    (hr : Reachable cfg s) :
    (handleMouseLeave s).lastSquare = none ∧
    (∀ i sq, getSquare i s.squares = some sq → sq.state = Phase.highlighted →
      (∃ tid : ℕ, getSquare i (handleMouseLeave s).squares =
          some ⟨Phase.fading, some tid⟩ ∧
        ∃ t ∈ (handleMouseLeave s).timers, t.id = tid ∧ t.index = i ∧
          t.kind = TimerKind.removal ∧ t.fireAt = s.now + leaveFadeDuration) ∧
      (∀ tid0, sq.timeoutId = some tid0 →
        ∀ t ∈ (handleMouseLeave s).timers, t.id ≠ tid0)) ∧
    (∀ i, getSquare i s.squares = none →
      getSquare i (handleMouseLeave s).squares = none) := by
  have hs := reachable_inv hr
  obtain ⟨hinv', hlast', hnow', hhl, hfad, hidle, hge⟩ := handleMouseLeave_char hs
  refine ⟨hlast', ?_, hidle⟩
  intro i sq hgs hst
  refine ⟨hhl i sq hgs hst, ?_⟩
  intro tid0 hto t ht heq
  have h1 : tid0 < s.nextTimerId := hs.2.2.2 i sq hgs tid0 hto
  have h2 := hge t ht
  omega

/-- Witness for C5 at the reachable demo state with one highlighted cell. -/
theorem c5_leave_fades_highlighted_clears_ref_witness :
    Reachable cfgDemo sMoveDemo ∧
    ((handleMouseLeave sMoveDemo).lastSquare = none ∧
    (∀ i sq, getSquare i sMoveDemo.squares = some sq →
      sq.state = Phase.highlighted →
      (∃ tid : ℕ, getSquare i (handleMouseLeave sMoveDemo).squares =
          some ⟨Phase.fading, some tid⟩ ∧
        ∃ t ∈ (handleMouseLeave sMoveDemo).timers, t.id = tid ∧ t.index = i ∧
          t.kind = TimerKind.removal ∧
          t.fireAt = sMoveDemo.now + leaveFadeDuration) ∧
      (∀ tid0, sq.timeoutId = some tid0 →
        ∀ t ∈ (handleMouseLeave sMoveDemo).timers, t.id ≠ tid0)) ∧
    (∀ i, getSquare i sMoveDemo.squares = none →
      getSquare i (handleMouseLeave sMoveDemo).squares = none)) :=
  ⟨reach_sMoveDemo,
    c5_leave_fades_highlighted_clears_ref cfgDemo sMoveDemo reach_sMoveDemo⟩

/-- C7 counterexample: in the reachable demo state the fading cell 1 has a
pending removal timer; after a pointer-leave event its entry is untouched
but no pending timer at all remains, so no new removal timer was
rescheduled and the cell can never be removed without a re-trigger. -/
theorem c7_counterexample :
    getSquare 1 sDwellDemo.squares = some ⟨Phase.fading, some 2⟩ ∧
    sDwellDemo.timers = [⟨2, 1, 900, TimerKind.removal⟩] ∧
    getSquare 1 (handleMouseLeave sDwellDemo).squares =
      some ⟨Phase.fading, some 2⟩ ∧
    (handleMouseLeave sDwellDemo).timers = [] := by
  rw [sDwellDemo_eval]
  decide

/-- C7 amended: on a pointer-leave event, a cell already fading keeps its
record unchanged and its pending removal timer is canceled, with no timer
rescheduled for it: afterwards no pending timer concerns that cell, and the
handle it recorded is no longer pending. -/
theorem c7_leave_cancels_fading_without_reschedule (cfg : GridConfig)
    (s : AnimState) (hr : Reachable cfg s) :
    ∀ i sq, getSquare i s.squares = some sq → sq.state = Phase.fading →
      getSquare i (handleMouseLeave s).squares = some sq ∧
      (∀ t ∈ (handleMouseLeave s).timers, t.index ≠ i) ∧
      (∀ tid0, sq.timeoutId = some tid0 →
        ∀ t ∈ (handleMouseLeave s).timers, t.id ≠ tid0) := by
  have hs := reachable_inv hr
  obtain ⟨_, _, _, _, hfad, _, hge⟩ := handleMouseLeave_char hs
  intro i sq hgs hst
  obtain ⟨hkeep, hnoidx⟩ := hfad i sq hgs hst
  refine ⟨hkeep, hnoidx, ?_⟩
  intro tid0 hto t ht heq
  have h1 : tid0 < s.nextTimerId := hs.2.2.2 i sq hgs tid0 hto
  have h2 := hge t ht
  omega

/-- Witness for the amended C7 at the reachable demo state with one fading
cell. -/
theorem c7_leave_cancels_fading_without_reschedule_witness :
    Reachable cfgDemo sDwellDemo ∧
    (∀ i sq, getSquare i sDwellDemo.squares = some sq →
      sq.state = Phase.fading →
      getSquare i (handleMouseLeave sDwellDemo).squares = some sq ∧
      (∀ t ∈ (handleMouseLeave sDwellDemo).timers, t.index ≠ i) ∧
      (∀ tid0, sq.timeoutId = some tid0 →
        ∀ t ∈ (handleMouseLeave sDwellDemo).timers, t.id ≠ tid0)) :=
  ⟨reach_sDwellDemo,
    c7_leave_cancels_fading_without_reschedule cfgDemo sDwellDemo reach_sDwellDemo⟩

theorem mem_of_mem_cleanupFold :
    ∀ (entries : List (ℤ × SquareState)) (ts : List Timer) (t : Timer),
      t ∈ entries.foldl (fun acc kv => clearRecorded (some kv.2) acc) ts →
      t ∈ ts := by
  intro entries
  induction entries with
  | nil =>
    intro ts t ht
    exact ht
  | cons kv rest ih =>
    intro ts t ht
    rw [List.foldl_cons] at ht
    exact mem_of_mem_clearRecorded (ih _ t ht)

theorem not_mem_cleanupFold :
    ∀ (entries : List (ℤ × SquareState)) (ts : List Timer) (t : Timer),
      (∃ kv ∈ entries, kv.2.timeoutId = some t.id) →
      t ∉ entries.foldl (fun acc kv => clearRecorded (some kv.2) acc) ts := by
  intro entries
  induction entries with
  | nil =>
    intro ts t h
    rcases h with ⟨kv, hkv, _⟩
    simp at hkv
  | cons kv0 rest ih =>
    intro ts t h ht
    rw [List.foldl_cons] at ht
    rcases h with ⟨kv, hkv, hto⟩
    rcases List.mem_cons.mp hkv with heq | hmem
    · rw [heq] at hto
      have ht' := mem_of_mem_cleanupFold rest _ t ht
      simp only [clearRecorded, hto] at ht'
      exact (mem_clearTimeout.mp ht').2 rfl
    · exact ih _ t ⟨kv, hmem, hto⟩ ht

/-- C8: in every reachable state the unmount cleanup hook cancels every
pending timer: after it runs, none remain. -/
theorem c8_cleanup_cancels_all_pending_timers (cfg : GridConfig) (s : AnimState)
    (hr : Reachable cfg s) : (cleanup s).timers = [] := by
  have hs := reachable_inv hr
  rw [List.eq_nil_iff_forall_not_mem]
  intro t ht
  have ht' : t ∈ s.squares.foldl
      (fun acc kv => clearRecorded (some kv.2) acc) s.timers := ht
  have htm : t ∈ s.timers := mem_of_mem_cleanupFold _ _ _ ht'
  obtain ⟨sq, hgs, hto⟩ := (hs.2.1 t htm).1
  have hmem : (t.index, sq) ∈ s.squares := getSquare_some_mem hgs
  exact not_mem_cleanupFold _ _ _ ⟨(t.index, sq), hmem, hto⟩ ht'

/-- Witness for C8 at the reachable demo state with one pending timer. -/
theorem c8_cleanup_cancels_all_pending_timers_witness :
    Reachable cfgDemo sDwellDemo ∧ (cleanup sDwellDemo).timers = [] :=
  ⟨reach_sDwellDemo,
    c8_cleanup_cancels_all_pending_timers cfgDemo sDwellDemo reach_sDwellDemo⟩
